import Mathlib

/-!
# Verification of `gestion_tareas.py`

A shallow embedding of the task-manager program `gestion_tareas.py`
(class `GestorTareas`): a binary min-heap of task tuples managed with
the CPython `heapq` algorithms (`heappush`, `heappop`, `heapify`,
`_siftdown`, `_siftup`), a completed-task set, JSON snapshot
persistence, a hand-written merge sort used to list pending tasks, and
a destructive dependency-gating scan (`obtener_tarea_mayor_prioridad`).

Python compares the task tuples `(prioridad, fecha, nombre,
dependencias)` lexicographically: integers by value, strings by code
points, lists of strings lexicographically.  We model this with
explicit three-valued comparators returning `Ordering`.
-/

namespace GestionTareas

/-! ## Comparators mirroring Python's `<` / `<=` on task tuples -/

/-- Comparison of natural numbers, as used for Python code-point comparison. -/
def cmpN (a b : Nat) : Ordering :=
  if a < b then .lt else if a = b then .eq else .gt

/-- Comparison of integers, as Python compares `int` values. -/
def cmpI (a b : Int) : Ordering :=
  if a < b then .lt else if a = b then .eq else .gt

/-- Comparison of characters by code point, as Python compares the
characters of a string. -/
def cmpC (a b : Char) : Ordering := cmpN a.toNat b.toNat

/-- Lexicographic comparison of lists, as Python compares lists (and the
character sequences of strings): a proper prefix is smaller. -/
def cmpL (c : α → α → Ordering) : List α → List α → Ordering
  | [], [] => .eq
  | [], _ :: _ => .lt
  | _ :: _, [] => .gt
  | a :: as, b :: bs =>
    match c a b with
    | .eq => cmpL c as bs
    | o => o

/-- Comparison of strings by code points, as Python compares `str`. -/
def cmpS (a b : String) : Ordering := cmpL cmpC a.data b.data

/-- Lexicographic pair comparison, as Python compares tuples componentwise. -/
def cmpP (c : α → α → Ordering) (d : β → β → Ordering) (x y : α × β) : Ordering :=
  match c x.1 y.1 with
  | .eq => d x.2 y.2
  | o => o

/-- A lawful three-valued comparator: reflects equality, is
antisymmetric under `Ordering.swap`, and its non-strict order is
transitive. -/
structure LawCmp (c : α → α → Ordering) : Prop where
  eq_of : ∀ {a b}, c a b = .eq → a = b
  refl : ∀ a, c a a = .eq
  symm : ∀ a b, (c a b).swap = c b a
  le_trans : ∀ {a b d}, c a b ≠ .gt → c b d ≠ .gt → c a d ≠ .gt

namespace LawCmp

variable {c : α → α → Ordering}

theorem lt_iff_gt (h : LawCmp c) {a b : α} : c a b = .lt ↔ c b a = .gt := by
  rw [← h.symm a b]; cases c a b <;> simp [Ordering.swap]

theorem eq_iff_eq (h : LawCmp c) {a b : α} : c a b = .eq ↔ c b a = .eq := by
  rw [← h.symm a b]; cases c a b <;> simp [Ordering.swap]

theorem le_of_lt (h : LawCmp c) {a b : α} (hab : c a b = .lt) : c a b ≠ .gt := by
  rw [hab]; simp

theorem le_of_eq (h : LawCmp c) {a b : α} (hab : a = b) : c a b ≠ .gt := by
  subst hab; rw [h.refl]; simp

theorem le_of_not_lt (h : LawCmp c) {a b : α} (hab : ¬ c a b = .lt) : c b a ≠ .gt := by
  rw [← h.symm a b]
  cases hcb : c a b <;> simp [Ordering.swap] <;> exact hab hcb

theorem not_gt_of_lt (h : LawCmp c) {a b : α} (hab : c a b = .lt) : c a b ≠ .gt := by
  rw [hab]; simp

theorem antisymm (h : LawCmp c) {a b : α} (hab : c a b ≠ .gt) (hba : c b a ≠ .gt) : a = b := by
  rcases hcb : c a b with _ | _ | _
  · exact absurd (h.lt_iff_gt.mp hcb) hba
  · exact h.eq_of hcb
  · exact absurd hcb hab

theorem lt_of_le_not_le (h : LawCmp c) {a b : α} (hab : c a b ≠ .gt) (hba : c b a = .gt) :
    c a b = .lt := h.lt_iff_gt.mpr hba

theorem lt_trans (h : LawCmp c) {a b d : α} (hab : c a b = .lt) (hbd : c b d = .lt) :
    c a d = .lt := by
  rcases had : c a d with _ | _ | _
  · rfl
  · exact absurd (h.eq_of had ▸ hbd) (fun hdb => by
      have := h.lt_iff_gt.mp hab
      rw [h.eq_of had] at hab
      exact absurd hdb (by rw [h.lt_iff_gt.mp hbd] at hab; simp at hab))
  · exact absurd had (h.le_trans (h.le_of_lt hab) (h.le_of_lt hbd))

theorem lt_of_lt_of_le (h : LawCmp c) {a b d : α} (hab : c a b = .lt) (hbd : c b d ≠ .gt) :
    c a d = .lt := by
  rcases hcb : c b d with _ | _ | _
  · exact h.lt_trans hab hcb
  · rw [← h.eq_of hcb]; exact hab
  · exact absurd hcb hbd

theorem lt_of_le_of_lt (h : LawCmp c) {a b d : α} (hab : c a b ≠ .gt) (hbd : c b d = .lt) :
    c a d = .lt := by
  rcases hcb : c a b with _ | _ | _
  · exact h.lt_trans hcb hbd
  · rw [h.eq_of hcb]; exact hbd
  · exact absurd hcb hab

theorem le_of_lt' (h : LawCmp c) {a b : α} (hab : c a b = .lt) : c a b ≠ .gt :=
  h.le_of_lt hab

theorem le_total (h : LawCmp c) (a b : α) : c a b ≠ .gt ∨ c b a ≠ .gt := by
  rcases hcb : c a b with _ | _ | _
  · left; simp
  · left; simp
  · right; rw [← h.symm a b, hcb]; simp [Ordering.swap]

end LawCmp

theorem cmpN_lt {a b : Nat} : cmpN a b = .lt ↔ a < b := by
  unfold cmpN; split <;> try split
  all_goals simp_all

theorem cmpN_eq {a b : Nat} : cmpN a b = .eq ↔ a = b := by
  unfold cmpN; split <;> try split
  all_goals simp_all
  all_goals omega

theorem cmpN_gt {a b : Nat} : cmpN a b = .gt ↔ b < a := by
  unfold cmpN; split <;> try split
  all_goals simp_all <;> omega

theorem lawCmpN : LawCmp cmpN where
  eq_of {a b} hc := cmpN_eq.mp hc
  refl a := cmpN_eq.mpr rfl
  symm a b := by
    rcases hc : cmpN a b with _ | _ | _
    · rw [show Ordering.lt.swap = Ordering.gt from rfl]
      exact (cmpN_gt.mpr (cmpN_lt.mp hc)).symm
    · rw [show Ordering.eq.swap = Ordering.eq from rfl]
      exact (cmpN_eq.mpr (cmpN_eq.mp hc).symm).symm
    · rw [show Ordering.gt.swap = Ordering.lt from rfl]
      exact (cmpN_lt.mpr (cmpN_gt.mp hc)).symm
  le_trans {a b d} h1 h2 := by
    rw [Ne, cmpN_gt] at h1 h2 ⊢; omega

theorem cmpI_lt {a b : Int} : cmpI a b = .lt ↔ a < b := by
  unfold cmpI; split <;> try split
  all_goals simp_all

theorem cmpI_eq {a b : Int} : cmpI a b = .eq ↔ a = b := by
  unfold cmpI; split <;> try split
  all_goals simp_all
  all_goals omega

theorem cmpI_gt {a b : Int} : cmpI a b = .gt ↔ b < a := by
  unfold cmpI; split <;> try split
  all_goals simp_all <;> omega

theorem lawCmpI : LawCmp cmpI where
  eq_of {a b} hc := cmpI_eq.mp hc
  refl a := cmpI_eq.mpr rfl
  symm a b := by
    rcases hc : cmpI a b with _ | _ | _
    · rw [show Ordering.lt.swap = Ordering.gt from rfl]
      exact (cmpI_gt.mpr (cmpI_lt.mp hc)).symm
    · rw [show Ordering.eq.swap = Ordering.eq from rfl]
      exact (cmpI_eq.mpr (cmpI_eq.mp hc).symm).symm
    · rw [show Ordering.gt.swap = Ordering.lt from rfl]
      exact (cmpI_lt.mpr (cmpI_gt.mp hc)).symm
  le_trans {a b d} h1 h2 := by
    rw [Ne, cmpI_gt] at h1 h2 ⊢; omega

theorem lawCmpC : LawCmp cmpC where
  eq_of {a b} hc := Char.ext (UInt32.ext (lawCmpN.eq_of hc))
  refl a := lawCmpN.refl _
  symm a b := lawCmpN.symm _ _
  le_trans {a b d} := lawCmpN.le_trans

theorem lawCmpL {c : α → α → Ordering} (hc : LawCmp c) : LawCmp (cmpL c) where
  eq_of {as bs} := by
    induction as generalizing bs with
    | nil => cases bs <;> simp [cmpL]
    | cons a as ih =>
      cases bs with
      | nil => simp [cmpL]
      | cons b bs =>
        intro hab
        unfold cmpL at hab
        rcases hcb : c a b with _ | _ | _ <;> rw [hcb] at hab
        · simp at hab
        · rw [hc.eq_of hcb, ih hab]
        · simp at hab
  refl as := by
    induction as with
    | nil => rfl
    | cons a as ih => unfold cmpL; rw [hc.refl]; exact ih
  symm as bs := by
    induction as generalizing bs with
    | nil => cases bs <;> rfl
    | cons a as ih =>
      cases bs with
      | nil => rfl
      | cons b bs =>
        unfold cmpL
        rw [← hc.symm a b]
        rcases c a b with _ | _ | _
        · rfl
        · exact ih bs
        · rfl
  le_trans {as bs ds} := by
    induction as generalizing bs ds with
    | nil =>
      intro _ _
      cases ds <;> simp [cmpL]
    | cons a as ih =>
      intro h1 h2
      cases bs with
      | nil => simp [cmpL] at h1
      | cons b bs =>
        cases ds with
        | nil => simp [cmpL] at h2
        | cons d ds =>
          unfold cmpL at h1 h2 ⊢
          rcases hab : c a b with _ | _ | _ <;> rw [hab] at h1 <;>
            rcases hbd : c b d with _ | _ | _ <;> rw [hbd] at h2
          · rw [hc.lt_trans hab hbd]; simp
          · rw [← hc.eq_of hbd, hab]; simp
          · exact absurd rfl h2
          · rw [hc.eq_of hab, hbd]; simp
          · rw [hc.eq_of hab, hbd]
            exact ih h1 h2
          · exact absurd rfl h2
          · exact absurd rfl h1
          · exact absurd rfl h1
          · exact absurd rfl h1

theorem lawCmpS : LawCmp cmpS where
  eq_of {a b} hc := by
    have h := (lawCmpL lawCmpC).eq_of hc
    cases a; cases b
    exact congrArg String.mk h
  refl a := (lawCmpL lawCmpC).refl _
  symm a b := (lawCmpL lawCmpC).symm _ _
  le_trans {a b d} := (lawCmpL lawCmpC).le_trans

theorem lawCmpP {c : α → α → Ordering} {d : β → β → Ordering}
    (hc : LawCmp c) (hd : LawCmp d) : LawCmp (cmpP c d) where
  eq_of {x y} hab := by
    unfold cmpP at hab
    rcases hcb : c x.1 y.1 with _ | _ | _ <;> rw [hcb] at hab
    · simp at hab
    · exact Prod.ext (hc.eq_of hcb) (hd.eq_of hab)
    · simp at hab
  refl x := by unfold cmpP; rw [hc.refl]; exact hd.refl _
  symm x y := by
    unfold cmpP
    rw [← hc.symm x.1 y.1]
    rcases c x.1 y.1 with _ | _ | _
    · rfl
    · exact hd.symm _ _
    · rfl
  le_trans {x y z} h1 h2 := by
    unfold cmpP at h1 h2 ⊢
    rcases hab : c x.1 y.1 with _ | _ | _ <;> rw [hab] at h1 <;>
      rcases hbd : c y.1 z.1 with _ | _ | _ <;> rw [hbd] at h2
    · rw [hc.lt_trans hab hbd]; simp
    · rw [← hc.eq_of hbd, hab]; simp
    · exact absurd rfl h2
    · rw [hc.eq_of hab, hbd]; simp
    · rw [hc.eq_of hab, hbd]
      exact hd.le_trans h1 h2
    · exact absurd rfl h2
    · exact absurd rfl h1
    · exact absurd rfl h1
    · exact absurd rfl h1

/-! ## The task record

`añadir_tarea` builds the tuple `(prioridad, fecha, nombre, dependencias)`;
the heap orders these tuples by Python's lexicographic tuple comparison. -/

/-- One task tuple `(prioridad, fecha, nombre, dependencias)` as pushed
onto `self.heap` by `añadir_tarea`. -/
structure Task where
  prioridad : Int
  fecha : String
  nombre : String
  dependencias : List String
deriving DecidableEq, Repr

instance : Inhabited Task := ⟨⟨0, "", "", []⟩⟩

/-- Python's `<`/`<=` on the 4-tuples: lexicographic over
(int, str, str, list-of-str). -/
def Task.cmp (t u : Task) : Ordering :=
  cmpP cmpI (cmpP cmpS (cmpP cmpS (cmpL cmpS)))
    (t.prioridad, t.fecha, t.nombre, t.dependencias)
    (u.prioridad, u.fecha, u.nombre, u.dependencias)

theorem lawCmpS' : LawCmp (cmpL cmpS) := lawCmpL lawCmpS

theorem lawCmpTup :
    LawCmp (cmpP cmpI (cmpP cmpS (cmpP cmpS (cmpL cmpS)))) :=
  lawCmpP lawCmpI (lawCmpP lawCmpS (lawCmpP lawCmpS lawCmpS'))

theorem lawTask : LawCmp Task.cmp where
  eq_of {t u} h := by
    have h2 := lawCmpTup.eq_of h
    cases t; cases u; simp_all
  refl t := lawCmpTup.refl _
  symm t u := lawCmpTup.symm _ _
  le_trans {t u v} := lawCmpTup.le_trans

/-- Non-strict heap order on tasks (`a <= b` in Python). -/
def Task.le (t u : Task) : Prop := Task.cmp t u ≠ .gt

instance : DecidableRel Task.le := fun t u => by
  unfold Task.le; infer_instance

/-- The sort key `(prioridad, fecha)` compared by `mezclar`
(`(izquierda[0][0], izquierda[0][1]) <= (derecha[0][0], derecha[0][1])`). -/
def mcmp (t u : Task) : Ordering :=
  cmpP cmpI cmpS (t.prioridad, t.fecha) (u.prioridad, u.fecha)

/-- Non-strict order on the `(prioridad, fecha)` sort key. -/
def mle (t u : Task) : Prop := mcmp t u ≠ .gt

instance : DecidableRel mle := fun t u => by
  unfold mle; infer_instance

theorem lawCmpPF : LawCmp (cmpP cmpI cmpS) := lawCmpP lawCmpI lawCmpS

theorem mle_refl (t : Task) : mle t t := by
  unfold mle mcmp; rw [lawCmpPF.refl]; simp

theorem mle_trans {t u v : Task} (h1 : mle t u) (h2 : mle u v) : mle t v :=
  lawCmpPF.le_trans h1 h2

theorem mle_total (t u : Task) : mle t u ∨ mle u t := lawCmpPF.le_total _ _

theorem mle_of_not_mle {t u : Task} (h : ¬ mle t u) : mle u t := by
  have hg : mcmp t u = .gt := not_ne_iff.mp h
  unfold mle mcmp
  rw [← lawCmpPF.symm (t.prioridad, t.fecha) (u.prioridad, u.fecha)]
  have he : mcmp t u = cmpP cmpI cmpS (t.prioridad, t.fecha) (u.prioridad, u.fecha) := rfl
  rw [← he, hg]
  simp [Ordering.swap]

/-- Full tuple order is stronger than the `(prioridad, fecha)` key order:
if `t <= u` as tuples then the key of `t` is `<=` the key of `u`. -/
theorem mle_of_taskle {t u : Task} (h : Task.le t u) : mle t u := by
  unfold Task.le Task.cmp cmpP at h
  unfold mle mcmp cmpP
  dsimp only at h ⊢
  rcases hi : cmpI t.prioridad u.prioridad with _ | _ | _ <;> rw [hi] at h
  · simp
  · rcases hs : cmpS t.fecha u.fecha with _ | _ | _ <;> rw [hs] at h
    · simp
    · simp
    · exact absurd rfl h
  · exact absurd rfl h

theorem task_le_refl (t : Task) : Task.le t t := by
  unfold Task.le; rw [lawTask.refl]; simp

theorem task_le_trans {t u v : Task} (h1 : Task.le t u) (h2 : Task.le u v) :
    Task.le t v := lawTask.le_trans h1 h2

theorem task_le_antisymm {t u : Task} (h1 : Task.le t u) (h2 : Task.le u t) :
    t = u := lawTask.antisymm h1 h2

theorem task_le_of_lt {t u : Task} (h : Task.cmp t u = .lt) : Task.le t u := by
  unfold Task.le; rw [h]; simp

theorem task_le_of_not_lt {t u : Task} (h : ¬ Task.cmp t u = .lt) : Task.le u t := by
  unfold Task.le
  rw [← lawTask.symm]
  rcases hc : Task.cmp t u with _ | _ | _ <;> try simp [Ordering.swap]
  exact h hc

/-! ## List indexing

Python's `heap[i]` on the heap list, total with a default for the
(never reached) out-of-bounds case. -/

/-- `gi l i` is Python's `l[i]`. -/
def gi (l : List Task) (n : Nat) : Task :=
  match l, n with
  | [], _ => default
  | t :: _, 0 => t
  | _ :: ts, n + 1 => gi ts n

@[simp] theorem gi_nil (n : Nat) : gi [] n = default := by cases n <;> rfl

@[simp] theorem gi_cons_zero (t : Task) (ts : List Task) : gi (t :: ts) 0 = t := rfl

@[simp] theorem gi_cons_succ (t : Task) (ts : List Task) (n : Nat) :
    gi (t :: ts) (n + 1) = gi ts n := rfl

theorem gi_set_eq : ∀ (l : List Task) (i : Nat) (a : Task), i < l.length →
    gi (l.set i a) i = a
  | [], i, a, h => by simp at h
  | t :: ts, 0, a, _ => rfl
  | t :: ts, i + 1, a, h => by
    simp only [List.set]
    rw [gi_cons_succ]
    exact gi_set_eq ts i a (by simpa using h)

theorem gi_set_ne : ∀ (l : List Task) (i : Nat) (a : Task) (j : Nat), i ≠ j →
    gi (l.set i a) j = gi l j
  | [], _, _, _, _ => by simp
  | t :: ts, 0, a, 0, h => absurd rfl h
  | t :: ts, 0, a, j + 1, _ => rfl
  | t :: ts, i + 1, a, 0, _ => rfl
  | t :: ts, i + 1, a, j + 1, h =>
    gi_set_ne ts i a j (fun hc => h (by rw [hc]))

theorem set_gi_self : ∀ (l : List Task) (i : Nat), l.set i (gi l i) = l
  | [], _ => by simp
  | t :: ts, 0 => rfl
  | t :: ts, i + 1 => by
    simp only [List.set, gi_cons_succ]
    rw [set_gi_self ts i]

theorem gi_append_left : ∀ (l l2 : List Task) (j : Nat), j < l.length →
    gi (l ++ l2) j = gi l j
  | [], _, _, h => by simp at h
  | t :: ts, l2, 0, _ => rfl
  | t :: ts, l2, j + 1, h => by
    simp only [List.cons_append, gi_cons_succ]
    exact gi_append_left ts l2 j (by simpa using h)

theorem gi_mem : ∀ (l : List Task) (n : Nat), n < l.length → gi l n ∈ l
  | [], _, h => by simp at h
  | t :: ts, 0, _ => List.mem_cons_self t ts
  | t :: ts, n + 1, h => by
    rw [gi_cons_succ]
    exact List.mem_cons_of_mem t (gi_mem ts n (by simpa using h))

theorem mem_gi : ∀ {l : List Task} {x : Task}, x ∈ l →
    ∃ n, n < l.length ∧ gi l n = x := by
  intro l x h
  induction l with
  | nil => simp at h
  | cons t ts ih =>
    rcases List.mem_cons.mp h with h1 | h1
    · exact ⟨0, by simp, h1.symm⟩
    · obtain ⟨n, hn, hg⟩ := ih h1
      exact ⟨n + 1, by simpa using hn, hg⟩

/-! ## CPython `heapq`

Functional translations of `heapq._siftdown`, `heapq._siftup`,
`heapq.heappush`, `heapq.heappop` and `heapq.heapify`, which
`gestion_tareas.py` uses on `self.heap`. -/

/-- `heapq._siftdown(heap, startpos, pos)`: bubble `newitem` from `pos`
up towards `startpos`, moving greater parents down, and finally store
`newitem`.  (In CPython `newitem` is read as `heap[pos]`; callers pass
that value here explicitly.) -/
def siftdown (newitem : Task) (startpos : Nat) (heap : List Task) (pos : Nat) :
    List Task :=
  if _h : startpos < pos then
    if Task.cmp newitem (gi heap ((pos - 1) / 2)) = .lt then
      siftdown newitem startpos (heap.set pos (gi heap ((pos - 1) / 2))) ((pos - 1) / 2)
    else
      heap.set pos newitem
  else
    heap.set pos newitem
termination_by pos
decreasing_by omega

/-- The loop of `heapq._siftup(heap, pos)`: walk down the smaller-child
path moving children up, then place `newitem` at the leaf and call
`_siftdown` back towards `startpos`. -/
def siftupLoop (newitem : Task) (endpos startpos : Nat) (heap : List Task)
    (pos childpos : Nat) : List Task :=
  if _h : childpos < endpos then
    if childpos + 1 < endpos ∧
        ¬ Task.cmp (gi heap childpos) (gi heap (childpos + 1)) = .lt then
      siftupLoop newitem endpos startpos (heap.set pos (gi heap (childpos + 1)))
        (childpos + 1) (2 * (childpos + 1) + 1)
    else
      siftupLoop newitem endpos startpos (heap.set pos (gi heap childpos))
        childpos (2 * childpos + 1)
  else
    siftdown newitem startpos (heap.set pos newitem) pos
termination_by endpos - childpos
decreasing_by all_goals omega

/-- `heapq._siftup(heap, pos)`. -/
def siftup (heap : List Task) (pos : Nat) : List Task :=
  siftupLoop (gi heap pos) heap.length pos heap pos (2 * pos + 1)

/-- `heapq.heappush(heap, item)`: append then `_siftdown(heap, 0, len-1)`. -/
def heappush (heap : List Task) (item : Task) : List Task :=
  siftdown item 0 (heap ++ [item]) heap.length

/-- `heapq.heappop(heap)`: pop the last element; if the heap is still
non-empty, put it at the root and `_siftup(heap, 0)`, returning the old
root.  Returns `none` on an empty heap (CPython raises `IndexError`,
which the program never triggers). -/
def heappop : List Task → Option (Task × List Task)
  | [] => none
  | [x] => some (x, [])
  | x :: y :: ys =>
    some (x, siftup ((y :: ys).getLast (List.cons_ne_nil y ys) :: (y :: ys).dropLast) 0)

/-- The loop of `heapq.heapify(x)`: `for i in reversed(range(n//2)): _siftup(x, i)`. -/
def heapifyAux : Nat → List Task → List Task
  | 0, heap => heap
  | i + 1, heap => heapifyAux i (siftup heap i)

/-- `heapq.heapify(x)`. -/
def heapify (heap : List Task) : List Task := heapifyAux (heap.length / 2) heap

/-! ### Shape lemmas: lengths and permutations -/

theorem length_siftdown (n : Task) (sp : Nat) :
    ∀ (p : Nat) (l : List Task), (siftdown n sp l p).length = l.length := by
  intro p
  induction p using Nat.strong_induction_on with
  | _ p ih =>
    intro l
    rw [siftdown]
    split
    · split
      · rw [ih ((p - 1) / 2) (by omega)]
        simp
      · simp
    · simp

theorem set_set' : ∀ (l : List Task) (i : Nat) (a b : Task),
    (l.set i a).set i b = l.set i b
  | [], _, _, _ => rfl
  | t :: ts, 0, _, _ => rfl
  | t :: ts, i + 1, a, b => by
    simp only [List.set]
    rw [set_set' ts i a b]

theorem set_comm' : ∀ (l : List Task) (i j : Nat) (a b : Task), i ≠ j →
    (l.set i a).set j b = (l.set j b).set i a
  | [], _, _, _, _, _ => rfl
  | t :: ts, 0, 0, _, _, h => absurd rfl h
  | t :: ts, 0, j + 1, _, _, _ => rfl
  | t :: ts, i + 1, 0, _, _, _ => rfl
  | t :: ts, i + 1, j + 1, a, b, h => by
    simp only [List.set]
    rw [set_comm' ts i j a b (fun hc => h (by rw [hc]))]

/-- Replacing `xs[k]` by `x` and putting the old `xs[k]` in front is a
permutation of putting `x` in front. -/
theorem extract_set (x : Task) : ∀ (xs : List Task) (k : Nat), k < xs.length →
    (gi xs k :: xs.set k x).Perm (x :: xs)
  | [], k, h => by simp at h
  | y :: ys, 0, _ => List.Perm.swap x y ys
  | y :: ys, k + 1, h => by
    simp only [gi_cons_succ, List.set]
    exact ((List.Perm.swap y (gi ys k) (ys.set k x)).trans
      ((extract_set x ys k (by simpa using h)).cons y)).trans
      (List.Perm.swap x y ys)

theorem perm_set_swap_lt : ∀ (l : List Task) (i j : Nat), i < j → j < l.length →
    ((l.set i (gi l j)).set j (gi l i)).Perm l
  | [], _, _, _, h => by simp at h
  | x :: xs, 0, j + 1, _, h => by
    simp only [gi_cons_succ, gi_cons_zero, List.set]
    exact extract_set x xs j (by simpa using h)
  | x :: xs, i + 1, j + 1, hij, h => by
    simp only [gi_cons_succ, List.set]
    exact (perm_set_swap_lt xs i j (by omega) (by simpa using h)).cons x

/-- Swapping the values at two positions of a list is a permutation. -/
theorem perm_set_swap (l : List Task) (i j : Nat) (hi : i < l.length)
    (hj : j < l.length) (hij : i ≠ j) :
    ((l.set i (gi l j)).set j (gi l i)).Perm l := by
  rcases Nat.lt_or_ge i j with h | h
  · exact perm_set_swap_lt l i j h hj
  · rw [set_comm' l i j _ _ hij]
    exact perm_set_swap_lt l j i (by omega) hi

/-- `_siftdown` permutes the heap: its result is a permutation of the
heap with `newitem` stored at `pos`. -/
theorem siftdown_perm (n : Task) (sp : Nat) :
    ∀ (l : List Task) (p : Nat), p < l.length →
      (siftdown n sp l p).Perm (l.set p n) := by
  intro l p
  induction l, p using siftdown.induct n sp with
  | case1 heap pos h1 h2 ih =>
    intro hp
    rw [siftdown, dif_pos h1, if_pos h2]
    have hpp : (pos - 1) / 2 < pos := by omega
    refine (ih (by simp; omega)).trans ?_
    have e1 : gi (heap.set pos n) ((pos - 1) / 2) = gi heap ((pos - 1) / 2) :=
      gi_set_ne heap pos n ((pos - 1) / 2) (by omega)
    have e2 : gi (heap.set pos n) pos = n := gi_set_eq heap pos n hp
    have e3 : (heap.set pos n).set pos (gi heap ((pos - 1) / 2)) =
        heap.set pos (gi heap ((pos - 1) / 2)) := set_set' heap pos n _
    have h4 := perm_set_swap (heap.set pos n) pos ((pos - 1) / 2)
      (by simpa using hp) (by simp; omega) (by omega)
    rw [e1, e2, e3] at h4
    exact h4
  | case2 heap pos h1 h2 =>
    intro _
    rw [siftdown, dif_pos h1, if_neg h2]
  | case3 heap pos h1 =>
    intro _
    rw [siftdown, dif_neg h1]

theorem length_siftupLoop (n : Task) (e sp : Nat) (l : List Task) (p cp : Nat) :
    (siftupLoop n e sp l p cp).length = l.length := by
  induction l, p, cp using siftupLoop.induct n e sp with
  | case1 heap pos childpos h1 h2 ih =>
    rw [siftupLoop, dif_pos h1, if_pos h2, ih]; simp
  | case2 heap pos childpos h1 h2 ih =>
    rw [siftupLoop, dif_pos h1, if_neg h2, ih]; simp
  | case3 heap pos childpos h1 =>
    rw [siftupLoop, dif_neg h1, length_siftdown]; simp

theorem length_siftup (l : List Task) (p : Nat) :
    (siftup l p).length = l.length := length_siftupLoop _ _ _ _ _ _

/-- Writing the value at `mc` into position `pos` and then `n` at `mc`
permutes to writing `n` at `pos`. -/
theorem set_move_perm (heap : List Task) (n : Task) (pos mc : Nat)
    (hp : pos < heap.length) (hmc : mc < heap.length) :
    ((heap.set pos (gi heap mc)).set mc n).Perm (heap.set pos n) := by
  rcases eq_or_ne pos mc with hc | hc
  · subst hc
    rw [set_gi_self]
  · have h4 := perm_set_swap (heap.set pos n) pos mc (by simpa using hp)
      (by simpa using hmc) hc
    rw [gi_set_eq heap pos n hp, gi_set_ne heap pos n mc hc, set_set'] at h4
    exact h4

/-- The `_siftup` walk permutes the heap: the result is a permutation of
the heap with `newitem` stored at the walking hole. -/
theorem siftupLoop_perm (n : Task) (e sp : Nat) :
    ∀ (l : List Task) (p cp : Nat), e = l.length → p < e →
      (siftupLoop n e sp l p cp).Perm (l.set p n) := by
  intro l p cp
  induction l, p, cp using siftupLoop.induct n e sp with
  | case1 heap pos childpos h1 h2 ih =>
    intro he hp
    rw [siftupLoop, dif_pos h1, if_pos h2]
    refine (ih (by simpa using he) (by omega)).trans ?_
    exact set_move_perm heap n pos (childpos + 1) (by omega) (by omega)
  | case2 heap pos childpos h1 h2 ih =>
    intro he hp
    rw [siftupLoop, dif_pos h1, if_neg h2]
    refine (ih (by simpa using he) (by omega)).trans ?_
    exact set_move_perm heap n pos childpos (by omega) (by omega)
  | case3 heap pos childpos h1 =>
    intro he hp
    rw [siftupLoop, dif_neg h1]
    refine (siftdown_perm n sp (heap.set pos n) pos (by simp; omega)).trans ?_
    rw [set_set']

/-- `_siftup` permutes the heap. -/
theorem siftup_perm (l : List Task) (p : Nat) (hp : p < l.length) :
    (siftup l p).Perm l := by
  unfold siftup
  refine (siftupLoop_perm (gi l p) l.length p l p (2 * p + 1) rfl hp).trans ?_
  rw [set_gi_self]

theorem length_heappush (l : List Task) (x : Task) :
    (heappush l x).length = l.length + 1 := by
  unfold heappush; rw [length_siftdown]; simp

theorem heappop_nil : heappop [] = none := rfl

theorem heappop_isSome {l : List Task} (h : l ≠ []) : (heappop l).isSome := by
  match l with
  | [x] => rfl
  | x :: y :: ys => rfl

/-- `heappop` returns the root and a permutation of the rest. -/
theorem heappop_perm : ∀ {l : List Task} {t : Task} {h2 : List Task},
    heappop l = some (t, h2) → (t :: h2).Perm l := by
  intro l t h2 h
  match l, h with
  | [x], h =>
    simp [heappop] at h
    obtain ⟨h3, h4⟩ := h
    subst h3; subst h4
    exact List.Perm.refl _
  | x :: y :: ys, h =>
    simp only [heappop, Option.some.injEq, Prod.mk.injEq] at h
    obtain ⟨h3, h4⟩ := h
    subst h3
    rw [← h4]
    refine List.Perm.cons x ?_
    refine (siftup_perm _ 0 (by simp)).trans ?_
    have he : (y :: ys).dropLast ++ [(y :: ys).getLast (List.cons_ne_nil y ys)] =
        y :: ys := List.dropLast_append_getLast (List.cons_ne_nil y ys)
    refine (List.perm_append_singleton _ _).symm.trans ?_
    rw [he]
  | [], h => simp [heappop] at h

theorem length_heapifyAux : ∀ (k : Nat) (l : List Task),
    (heapifyAux k l).length = l.length
  | 0, l => rfl
  | k + 1, l => by
    rw [heapifyAux, length_heapifyAux k, length_siftup]

theorem heapifyAux_perm : ∀ (k : Nat) (l : List Task), k ≤ l.length →
    (heapifyAux k l).Perm l
  | 0, l, _ => List.Perm.refl l
  | k + 1, l, h => by
    rw [heapifyAux]
    refine (heapifyAux_perm k (siftup l k) (by rw [length_siftup]; omega)).trans ?_
    exact siftup_perm l k (by omega)

theorem length_heapify (l : List Task) : (heapify l).length = l.length := by
  unfold heapify; rw [length_heapifyAux]

/-- `heapify` permutes the list. -/
theorem heapify_perm (l : List Task) : (heapify l).Perm l :=
  heapifyAux_perm _ l (by omega)

/-! ## The binary-heap invariant -/

/-- The `heapq` invariant: every element is `<=` its two children under
the full tuple order (equivalently, every non-root element is `>=` its
parent `heap[(j-1)//2]`). -/
def IsHeap (l : List Task) : Prop :=
  ∀ j, j < l.length → 0 < j → Task.le (gi l ((j - 1) / 2)) (gi l j)

instance : DecidablePred IsHeap := fun l => by
  unfold IsHeap; infer_instance

/-- The claim-side formulation: `heap[i] <= heap[2*i+1]` and
`heap[i] <= heap[2*i+2]` whenever the child index is in range. -/
theorem isHeap_iff_children (l : List Task) :
    IsHeap l ↔ ∀ i c, (c = 2 * i + 1 ∨ c = 2 * i + 2) → c < l.length →
      Task.le (gi l i) (gi l c) := by
  constructor
  · intro h i c hc hcl
    have : (c - 1) / 2 = i := by omega
    rw [← this]
    exact h c hcl (by omega)
  · intro h j hj h0
    exact h ((j - 1) / 2) j (by omega) hj

/-- In a heap the root is `<=` every element. -/
theorem root_min {l : List Task} (h : IsHeap l) :
    ∀ j, j < l.length → Task.le (gi l 0) (gi l j) := by
  intro j
  induction j using Nat.strong_induction_on with
  | _ j ih =>
    intro hj
    rcases Nat.eq_zero_or_pos j with h0 | h0
    · subst h0; exact task_le_refl _
    · exact task_le_trans (ih ((j - 1) / 2) (by omega) (by omega)) (h j hj h0)

/-- In a heap the root is `<=` every member. -/
theorem root_min_mem {l : List Task} (h : IsHeap l) {x : Task} (hx : x ∈ l) :
    Task.le (gi l 0) x := by
  obtain ⟨n, hn, hg⟩ := mem_gi hx
  rw [← hg]
  exact root_min h n hn

/-! ### Subtree machinery for `_siftup` / `heapify` correctness -/

/-- `InSub sp j`: index `j` lies in the binary-tree subtree rooted at `sp`
(following parent links `j ↦ (j-1)/2`). -/
def InSub (sp j : Nat) : Bool :=
  if j < sp then false
  else if j = sp then true
  else InSub sp ((j - 1) / 2)
termination_by j
decreasing_by omega

@[simp] theorem insub_self (sp : Nat) : InSub sp sp = true := by
  rw [InSub]; simp

theorem insub_le {sp j : Nat} (h : InSub sp j = true) : sp ≤ j := by
  by_contra hc
  rw [InSub] at h
  simp [Nat.lt_of_not_le hc] at h

theorem insub_parent {sp j : Nat} (h : InSub sp j = true) (hne : j ≠ sp) :
    InSub sp ((j - 1) / 2) = true := by
  have hle := insub_le h
  rw [InSub] at h
  rw [if_neg (by omega), if_neg hne] at h
  exact h

theorem insub_of_parent {sp j : Nat} (hj : 0 < j)
    (h : InSub sp ((j - 1) / 2) = true) : InSub sp j = true := by
  have hle := insub_le h
  have hpj : (j - 1) / 2 < j := by omega
  rcases eq_or_ne j sp with he | he
  · simp [he]
  · rw [InSub, if_neg (by omega), if_neg he]
    exact h

theorem insub_child {sp p c : Nat} (h : InSub sp p = true)
    (hc : c = 2 * p + 1 ∨ c = 2 * p + 2) : InSub sp c = true := by
  apply insub_of_parent (by omega)
  have : (c - 1) / 2 = p := by omega
  rw [this]
  exact h

@[simp] theorem insub_zero (j : Nat) : InSub 0 j = true := by
  induction j using Nat.strong_induction_on with
  | _ j ih =>
    rcases Nat.eq_zero_or_pos j with h0 | h0
    · subst h0; simp
    · exact insub_of_parent h0 (ih ((j - 1) / 2) (by omega))

theorem insub_trans {a b c : Nat} (h1 : InSub a b = true)
    (h2 : InSub b c = true) : InSub a c = true := by
  induction c using Nat.strong_induction_on with
  | _ c ih =>
    rcases eq_or_ne c b with he | he
    · subst he; exact h1
    · have hb := insub_le h2
      have ha := insub_le h1
      have h3 := insub_parent h2 he
      have h4 := ih ((c - 1) / 2) (by omega) h3
      exact insub_of_parent (by omega) h4

theorem insub_bound {r j : Nat} (h : InSub r j = true) :
    j = r ∨ 2 * r + 1 ≤ j := by
  induction j using Nat.strong_induction_on with
  | _ j ih =>
    rcases eq_or_ne j r with he | he
    · exact Or.inl he
    · have hr := insub_le h
      have h3 := insub_parent h he
      rcases ih ((j - 1) / 2) (by omega) h3 with h4 | h4 <;> [right; right] <;> omega

/-- The ancestors of an index form a chain: two subtree roots containing a
common index are comparable. -/
theorem insub_comparable {i r j : Nat} (h1 : InSub i j = true)
    (h2 : InSub r j = true) : InSub i r = true ∨ InSub r i = true := by
  induction j using Nat.strong_induction_on with
  | _ j ih =>
    rcases eq_or_ne j i with he | he
    · subst he; exact Or.inr h2
    · rcases eq_or_ne j r with he2 | he2
      · subst he2; exact Or.inl h1
      · have hi := insub_le h1
        exact ih ((j - 1) / 2) (by omega) (insub_parent h1 he) (insub_parent h2 he2)

/-- A strict member of the subtree at `sp` lies in one of the two child
subtrees. -/
theorem insub_split {sp j : Nat} (h : InSub sp j = true) (hne : j ≠ sp) :
    InSub (2 * sp + 1) j = true ∨ InSub (2 * sp + 2) j = true := by
  induction j using Nat.strong_induction_on with
  | _ j ih =>
    have hle := insub_le h
    have hp := insub_parent h hne
    rcases eq_or_ne ((j - 1) / 2) sp with he | he
    · rcases (by omega : j = 2 * sp + 1 ∨ j = 2 * sp + 2) with h4 | h4 <;>
        [left; right] <;> simp [h4]
    · rcases ih ((j - 1) / 2) (by omega) hp he with h4 | h4 <;> [left; right] <;>
        exact insub_of_parent (by omega) h4

/-- The heap property restricted to the subtree rooted at `r`. -/
def SubHeap (l : List Task) (r : Nat) : Prop :=
  ∀ j, j < l.length → InSub r j = true → j ≠ r →
    Task.le (gi l ((j - 1) / 2)) (gi l j)

theorem subHeap_zero {l : List Task} : SubHeap l 0 ↔ IsHeap l := by
  constructor
  · intro h j hj h0
    exact h j hj (insub_zero j) (by omega)
  · intro h j hj hin hne
    exact h j hj (by omega)

theorem subHeap_of_isHeap {l : List Task} (h : IsHeap l) (r : Nat) :
    SubHeap l r := fun j hj hji hne => h j hj (by
      have := insub_le hji
      omega)

/-- Correctness of `_siftdown` inside the subtree at `startpos`: if the
subtree is a heap except possibly around the hole `pos` (clause `hA`),
every child of the hole dominates `newitem` (`hB`), and the hole's
children dominate the hole's parent (`hC`), then after the sift the
subtree is a heap below its root. -/
theorem siftdown_correct (n : Task) (sp : Nat) :
    ∀ (l : List Task) (p : Nat),
    p < l.length → sp ≤ p → InSub sp p = true →
    (∀ j, j < l.length → InSub sp j = true → j ≠ sp → j ≠ p →
      Task.le (gi l ((j - 1) / 2)) (gi l j)) →
    (∀ c, c < l.length → (c = 2 * p + 1 ∨ c = 2 * p + 2) →
      Task.le n (gi l c)) →
    (sp < p → ∀ c, c < l.length → (c = 2 * p + 1 ∨ c = 2 * p + 2) →
      Task.le (gi l ((p - 1) / 2)) (gi l c)) →
    ∀ j, j < (siftdown n sp l p).length → InSub sp j = true → j ≠ sp →
      Task.le (gi (siftdown n sp l p) ((j - 1) / 2)) (gi (siftdown n sp l p) j) := by
  intro l p
  induction l, p using siftdown.induct n sp with
  | case1 heap pos h1 h2 ih =>
    intro hp hsp hin hA hB hC
    rw [siftdown, dif_pos h1, if_pos h2]
    have hppp : (pos - 1) / 2 < pos := by omega
    have hinp : InSub sp ((pos - 1) / 2) = true := insub_parent hin (by omega)
    have hlep : Task.le n (gi heap ((pos - 1) / 2)) := task_le_of_lt h2
    apply ih
    · simp; omega
    · exact insub_le hinp
    · exact hinp
    · -- hA for the new list, hole at parentpos
      intro j hj hjin hjsp hjpp
      rw [List.length_set] at hj
      rcases eq_or_ne j pos with he | he
      · rw [he, gi_set_ne heap pos _ ((pos - 1) / 2) (by omega),
          gi_set_eq heap pos _ hp]
        exact task_le_refl _
      · rcases eq_or_ne ((j - 1) / 2) pos with he2 | he2
        · have hj2 : j = 2 * pos + 1 ∨ j = 2 * pos + 2 := by omega
          rw [he2, gi_set_eq heap pos _ hp, gi_set_ne heap pos _ j he.symm]
          exact hC h1 j hj hj2
        · rw [gi_set_ne heap pos _ ((j - 1) / 2) (fun hc => he2 hc.symm),
            gi_set_ne heap pos _ j (fun hc => he hc.symm)]
          exact hA j hj hjin hjsp he
    · -- hB: children of the new hole dominate n
      intro c hc hcc
      rw [List.length_set] at hc
      have hcpos : pos = 2 * ((pos - 1) / 2) + 1 ∨ pos = 2 * ((pos - 1) / 2) + 2 := by
        omega
      rcases eq_or_ne c pos with he | he
      · rw [he, gi_set_eq heap pos _ hp]
        exact hlep
      · rw [gi_set_ne heap pos _ c he.symm]
        have hcin : InSub sp c = true := insub_child hinp hcc
        have hcpair := hA c hc hcin (by
            have := insub_le hinp; omega) he
        have he4 : (c - 1) / 2 = (pos - 1) / 2 := by omega
        rw [he4] at hcpair
        exact task_le_trans hlep hcpair
    · -- hC: the new hole's children dominate the new hole's parent
      intro hsp2 c hc hcc
      rw [List.length_set] at hc
      have hppne : ((pos - 1) / 2 - 1) / 2 ≠ pos := by omega
      rw [gi_set_ne heap pos _ _ hppne.symm]
      have hpair : Task.le (gi heap (((pos - 1) / 2 - 1) / 2))
          (gi heap ((pos - 1) / 2)) :=
        hA ((pos - 1) / 2) (by omega) hinp (by omega) (by omega)
      rcases eq_or_ne c pos with he | he
      · rw [he, gi_set_eq heap pos _ hp]
        exact hpair
      · rw [gi_set_ne heap pos _ c he.symm]
        have hcin : InSub sp c = true := insub_child hinp hcc
        have hcpair := hA c hc hcin (by
            have := insub_le hinp; omega) he
        have he3 : (c - 1) / 2 = (pos - 1) / 2 := by omega
        rw [he3] at hcpair
        exact task_le_trans hpair hcpair
  | case2 heap pos h1 h2 =>
    intro hp hsp hin hA hB hC
    rw [siftdown, dif_pos h1, if_neg h2]
    have hlep : Task.le (gi heap ((pos - 1) / 2)) n := task_le_of_not_lt h2
    intro j hj hjin hjsp
    rw [List.length_set] at hj
    rcases eq_or_ne j pos with he | he
    · rw [he, gi_set_ne heap pos n ((pos - 1) / 2) (by omega), gi_set_eq heap pos n hp]
      exact hlep
    · rcases eq_or_ne ((j - 1) / 2) pos with he2 | he2
      · rw [he2, gi_set_eq heap pos n hp, gi_set_ne heap pos n j he.symm]
        exact hB j hj (by omega)
      · rw [gi_set_ne heap pos n ((j - 1) / 2) he2.symm,
          gi_set_ne heap pos n j he.symm]
        exact hA j hj hjin hjsp he
  | case3 heap pos h1 =>
    intro hp hsp hin hA hB hC
    rw [siftdown, dif_neg h1]
    have hpsp : pos = sp := by omega
    subst hpsp
    intro j hj hjin hjsp
    rw [List.length_set] at hj
    have hjpos : j ≠ pos := hjsp
    rcases eq_or_ne ((j - 1) / 2) pos with he2 | he2
    · rw [he2, gi_set_eq heap pos n hp, gi_set_ne heap pos n j hjpos.symm]
      exact hB j hj (by omega)
    · rw [gi_set_ne heap pos n ((j - 1) / 2) he2.symm,
        gi_set_ne heap pos n j hjpos.symm]
      exact hA j hj hjin hjsp hjpos

/-- Correctness of the `_siftup` walk within the subtree at `startpos`:
if the subtree pairs hold except those from the hole `pos` (`hV4`), and
the hole dominates its children whenever it is not the subtree root
(`hV7`), the walk produces a heap-ordered subtree below `startpos`. -/
theorem siftupLoop_correct (n : Task) (e sp : Nat) :
    ∀ (l : List Task) (p cp : Nat),
    e = l.length → sp ≤ p → p < e → InSub sp p = true → cp = 2 * p + 1 →
    (∀ j, j < e → InSub sp j = true → j ≠ sp → (j - 1) / 2 ≠ p →
      Task.le (gi l ((j - 1) / 2)) (gi l j)) →
    (p ≠ sp → ∀ c, c < e → (c = 2 * p + 1 ∨ c = 2 * p + 2) →
      Task.le (gi l p) (gi l c)) →
    ∀ j, j < (siftupLoop n e sp l p cp).length → InSub sp j = true → j ≠ sp →
      Task.le (gi (siftupLoop n e sp l p cp) ((j - 1) / 2))
        (gi (siftupLoop n e sp l p cp) j) := by
  intro l p cp
  induction l, p, cp using siftupLoop.induct n e sp with
  | case1 heap pos childpos h1 h2 ih =>
    intro he hsp hp hin hcp hV4 hV7
    subst hcp
    rw [siftupLoop, dif_pos h1, if_pos h2]
    set mc := 2 * pos + 1 + 1 with hmc
    have hmce : mc < e := h2.1
    have hminle : Task.le (gi heap mc) (gi heap (2 * pos + 1)) :=
      task_le_of_not_lt h2.2
    have hmcin : InSub sp mc = true := insub_child hin (by omega)
    have hpjmc : (mc - 1) / 2 = pos := by omega
    apply ih
    · simpa using he
    · omega
    · exact hmce
    · exact hmcin
    · rfl
    · -- V4 for the new list, hole at mc
      intro j hj hjin hjsp hjpj
      have hgp : gi (heap.set pos (gi heap mc)) pos = gi heap mc :=
        gi_set_eq heap pos _ (by omega)
      rcases eq_or_ne j pos with hep | hep
      · -- the old hole: its parent pair, via hV4 ∘ hV7
        rw [hep]
        have hpsp : pos ≠ sp := by
          intro hc
          rw [hep, hc] at hjsp
          exact hjsp rfl
        have hpne : (pos - 1) / 2 ≠ pos := by omega
        rw [gi_set_ne heap pos _ ((pos - 1) / 2) hpne.symm, hgp]
        have h4 := hV4 pos (by omega) hin hpsp hpne
        have h7 := hV7 hpsp mc hmce (by omega)
        exact task_le_trans h4 h7
      · rcases eq_or_ne ((j - 1) / 2) pos with hej | hej
        · rcases eq_or_ne j mc with hemc | hemc
          · -- the hole's own child position mc now repeats its value
            rw [hej, hgp, gi_set_ne heap pos _ j hep.symm, hemc]
            exact task_le_refl _
          · -- the other child of the old hole
            have hjoc : j = 2 * pos + 1 := by omega
            rw [hej, hgp, gi_set_ne heap pos _ j hep.symm, hjoc]
            exact hminle
        · rw [gi_set_ne heap pos _ ((j - 1) / 2) hej.symm,
            gi_set_ne heap pos _ j hep.symm]
          exact hV4 j hj hjin hjsp hej
    · -- V7 for the new hole mc
      intro _ d hd hdc
      have hdp : d ≠ pos := by omega
      have hdmc : (d - 1) / 2 = mc := by omega
      rw [gi_set_ne heap pos _ mc (by omega), gi_set_ne heap pos _ d hdp.symm]
      have hdin : InSub sp d = true := insub_child hmcin hdc
      have h4 := hV4 d hd hdin (by omega) (by omega)
      rw [hdmc] at h4
      exact h4
  | case2 heap pos childpos h1 h2 ih =>
    intro he hsp hp hin hcp hV4 hV7
    subst hcp
    rw [siftupLoop, dif_pos h1, if_neg h2]
    push_neg at h2
    set mc := 2 * pos + 1 with hmc
    have hmce : mc < e := h1
    have hmcin : InSub sp mc = true := insub_child hin (by omega)
    apply ih
    · simpa using he
    · omega
    · exact hmce
    · exact hmcin
    · rfl
    · -- V4 for the new list, hole at mc
      intro j hj hjin hjsp hjpj
      have hgp : gi (heap.set pos (gi heap mc)) pos = gi heap mc :=
        gi_set_eq heap pos _ (by omega)
      rcases eq_or_ne j pos with hep | hep
      · rw [hep]
        have hpsp : pos ≠ sp := by
          intro hc
          rw [hep, hc] at hjsp
          exact hjsp rfl
        have hpne : (pos - 1) / 2 ≠ pos := by omega
        rw [gi_set_ne heap pos _ ((pos - 1) / 2) hpne.symm, hgp]
        have h4 := hV4 pos (by omega) hin hpsp hpne
        have h7 := hV7 hpsp mc hmce (by omega)
        exact task_le_trans h4 h7
      · rcases eq_or_ne ((j - 1) / 2) pos with hej | hej
        · rcases eq_or_ne j mc with hemc | hemc
          · rw [hej, hgp, gi_set_ne heap pos _ j hep.symm, hemc]
            exact task_le_refl _
          · -- the other child of the old hole (the right child, if in range)
            have hjoc : j = 2 * pos + 2 := by omega
            rw [hej, hgp, gi_set_ne heap pos _ j hep.symm]
            have hlt := h2 (by omega)
            rw [hjoc]
            have h22 : (2 : Nat) * pos + 2 = 2 * pos + 1 + 1 := by omega
            rw [h22]
            exact task_le_of_lt hlt
        · rw [gi_set_ne heap pos _ ((j - 1) / 2) hej.symm,
            gi_set_ne heap pos _ j hep.symm]
          exact hV4 j hj hjin hjsp hej
    · -- V7 for the new hole mc
      intro _ d hd hdc
      have hdp : d ≠ pos := by omega
      have hdmc : (d - 1) / 2 = mc := by omega
      rw [gi_set_ne heap pos _ mc (by omega), gi_set_ne heap pos _ d hdp.symm]
      have hdin : InSub sp d = true := insub_child hmcin hdc
      have h4 := hV4 d hd hdin (by omega) (by omega)
      rw [hdmc] at h4
      exact h4
  | case3 heap pos childpos h1 =>
    intro he hsp hp hin hcp hV4 hV7
    subst hcp
    rw [siftupLoop, dif_neg h1]
    apply siftdown_correct
    · simp; omega
    · exact hsp
    · exact hin
    · -- hA for the leaf write
      intro j hj hjin hjsp hjp
      rw [List.length_set] at hj
      have hjpj : (j - 1) / 2 ≠ pos := by omega
      rw [gi_set_ne heap pos n ((j - 1) / 2) hjpj.symm,
        gi_set_ne heap pos n j hjp.symm]
      exact hV4 j (by omega) hjin hjsp hjpj
    · intro c hc hcc
      rw [List.length_set] at hc
      omega
    · intro _ c hc hcc
      rw [List.length_set] at hc
      omega

/-- `_siftup` at `i` turns a list whose two child subtrees of `i` are
heap-ordered into one whose whole subtree at `i` is heap-ordered. -/
theorem siftup_correct (l : List Task) (i : Nat) (hi : i < l.length)
    (h1 : SubHeap l (2 * i + 1)) (h2 : SubHeap l (2 * i + 2)) :
    SubHeap (siftup l i) i := by
  have hdef : siftup l i = siftupLoop (gi l i) l.length i l i (2 * i + 1) := rfl
  intro j hj hjin hjne
  rw [hdef] at hj ⊢
  apply siftupLoop_correct (gi l i) l.length i l i (2 * i + 1) rfl
    (Nat.le_refl i) hi (insub_self i) rfl ?_ ?_ j hj hjin hjne
  · intro k hk hkin hksp hkpj
    rcases insub_split hkin hksp with hs | hs
    · refine h1 k hk hs ?_
      intro hc
      rw [hc] at hkpj
      omega
    · refine h2 k hk hs ?_
      intro hc
      rw [hc] at hkpj
      omega
  · intro hc
    exact absurd rfl hc

theorem insub_antisymm {a b : Nat} (h1 : InSub a b = true)
    (h2 : InSub b a = true) : a = b := by
  have := insub_le h1
  have := insub_le h2
  omega

theorem subHeap_mono {l : List Task} {a r : Nat} (h : SubHeap l a)
    (har : InSub a r = true) : SubHeap l r := by
  intro j hj hjr hne
  refine h j hj (insub_trans har hjr) ?_
  intro hc
  subst hc
  exact hne (insub_antisymm hjr har).symm

/-- `_siftdown` only writes inside the subtree of `startpos`. -/
theorem siftdown_untouched (n : Task) (sp : Nat) :
    ∀ (l : List Task) (p : Nat), InSub sp p = true →
      ∀ q, InSub sp q = false → gi (siftdown n sp l p) q = gi l q := by
  intro l p
  induction l, p using siftdown.induct n sp with
  | case1 heap pos h1 h2 ih =>
    intro hin q hq
    rw [siftdown, dif_pos h1, if_pos h2]
    have hqp : q ≠ pos := by
      intro hc; rw [hc, hin] at hq; simp at hq
    rw [ih (insub_parent hin (by
        intro hc
        subst hc
        omega)) q hq]
    exact gi_set_ne heap pos _ q hqp.symm
  | case2 heap pos h1 h2 =>
    intro hin q hq
    rw [siftdown, dif_pos h1, if_neg h2]
    have hqp : q ≠ pos := by
      intro hc; rw [hc, hin] at hq; simp at hq
    exact gi_set_ne heap pos n q hqp.symm
  | case3 heap pos h1 =>
    intro hin q hq
    rw [siftdown, dif_neg h1]
    have hqp : q ≠ pos := by
      intro hc; rw [hc, hin] at hq; simp at hq
    exact gi_set_ne heap pos n q hqp.symm

/-- The `_siftup` walk only writes inside the subtree of `startpos`. -/
theorem siftupLoop_untouched (n : Task) (e sp : Nat) :
    ∀ (l : List Task) (p cp : Nat), InSub sp p = true → cp = 2 * p + 1 →
      ∀ q, InSub sp q = false → gi (siftupLoop n e sp l p cp) q = gi l q := by
  intro l p cp
  induction l, p, cp using siftupLoop.induct n e sp with
  | case1 heap pos childpos h1 h2 ih =>
    intro hin hcp q hq
    subst hcp
    rw [siftupLoop, dif_pos h1, if_pos h2]
    have hqp : q ≠ pos := by
      intro hc; rw [hc, hin] at hq; simp at hq
    rw [ih (insub_child hin (by omega)) rfl q hq]
    exact gi_set_ne heap pos _ q hqp.symm
  | case2 heap pos childpos h1 h2 ih =>
    intro hin hcp q hq
    subst hcp
    rw [siftupLoop, dif_pos h1, if_neg h2]
    have hqp : q ≠ pos := by
      intro hc; rw [hc, hin] at hq; simp at hq
    rw [ih (insub_child hin (by omega)) rfl q hq]
    exact gi_set_ne heap pos _ q hqp.symm
  | case3 heap pos childpos h1 =>
    intro hin hcp q hq
    rw [siftupLoop, dif_neg h1]
    have hqp : q ≠ pos := by
      intro hc; rw [hc, hin] at hq; simp at hq
    rw [siftdown_untouched n sp _ pos hin q hq]
    exact gi_set_ne heap pos n q hqp.symm

/-- `_siftup` at `i` only writes inside the subtree of `i`. -/
theorem siftup_untouched (l : List Task) (i : Nat) :
    ∀ q, InSub i q = false → gi (siftup l i) q = gi l q :=
  siftupLoop_untouched (gi l i) l.length i l i (2 * i + 1) (insub_self i) rfl

/-- `heappush` preserves the heap invariant. -/
theorem heappush_isHeap {l : List Task} (h : IsHeap l) (x : Task) :
    IsHeap (heappush l x) := by
  have hdef : heappush l x = siftdown x 0 (l ++ [x]) l.length := rfl
  have hcore := siftdown_correct x 0 (l ++ [x]) l.length (by simp) (by omega)
    (insub_zero _) ?_ ?_ ?_
  · intro j hj h0
    rw [hdef] at hj ⊢
    exact hcore j hj (insub_zero j) (by omega)
  · intro j hj _ hj0 hjl
    rw [List.length_append, List.length_singleton] at hj
    have hjlen : j < l.length := by omega
    rw [gi_append_left l [x] j hjlen, gi_append_left l [x] ((j - 1) / 2) (by omega)]
    exact h j hjlen (by omega)
  · intro c hc hcc
    rw [List.length_append, List.length_singleton] at hc
    omega
  · intro h0 c hc hcc
    rw [List.length_append, List.length_singleton] at hc
    omega

theorem gi_dropLast : ∀ (l : List Task) (j : Nat), j < l.dropLast.length →
    gi l.dropLast j = gi l j
  | [], j, h => by simp at h
  | [x], j, h => by simp at h
  | x :: y :: ys, 0, _ => rfl
  | x :: y :: ys, j + 1, h => by
    have hd : (x :: y :: ys).dropLast = x :: (y :: ys).dropLast := rfl
    rw [hd, gi_cons_succ, gi_cons_succ]
    exact gi_dropLast (y :: ys) j (by simpa using h)

/-- `heappop` preserves the heap invariant. -/
theorem heappop_isHeap : ∀ {l : List Task} {t : Task} {h2 : List Task},
    heappop l = some (t, h2) → IsHeap l → IsHeap h2 := by
  intro l t h2 hpop h
  match l, hpop with
  | [x], hpop =>
    simp [heappop] at hpop
    rw [hpop.2]
    intro j hj h0
    simp at hj
  | x :: y :: ys, hpop =>
    simp only [heappop, Option.some.injEq, Prod.mk.injEq] at hpop
    rw [← hpop.2]
    set o := x :: y :: ys with ho
    set lp := (y :: ys).getLast (List.cons_ne_nil y ys) :: (y :: ys).dropLast
      with hlp
    have hlen : lp.length = ys.length + 1 := by
      rw [hlp]
      simp
    have hgi : ∀ k, 1 ≤ k → k < lp.length → gi lp k = gi o k := by
      intro k h1 h2
      match k, h1 with
      | k + 1, _ =>
        rw [hlp, gi_cons_succ, gi_dropLast (y :: ys) k (by simp; omega)]
        rfl
    have hsub : ∀ r, 1 ≤ r → SubHeap lp r := by
      intro r hr j hj hjin hjne
      have hb := insub_bound hjin
      have hj3 : 3 ≤ j := by omega
      have hpj1 : 1 ≤ (j - 1) / 2 := by omega
      have holen : j < o.length := by
        rw [ho]
        simp
        rw [hlen] at hj
        omega
      rw [hgi j (by omega) hj, hgi ((j - 1) / 2) hpj1 (by omega)]
      exact h j holen (by omega)
    have hcore := siftup_correct lp 0 (by rw [hlen]; omega)
      (hsub 1 (by omega)) (hsub 2 (by omega))
    intro j hj h0
    exact hcore j hj (insub_zero j) (by omega)
  | [], hpop => simp [heappop] at hpop

/-- The `heapify` loop: once all subtrees rooted at indices `>= k` are
heap-ordered, running the loop down from `k` heap-orders every subtree. -/
theorem heapifyAux_correct : ∀ (k : Nat) (l : List Task), k ≤ l.length →
    (∀ r, k ≤ r → SubHeap l r) → ∀ r, SubHeap (heapifyAux k l) r
  | 0, l, _, hsub, r => by
    rw [heapifyAux]
    exact hsub r (by omega)
  | k + 1, l, hk, hsub, r => by
    rw [heapifyAux]
    apply heapifyAux_correct k (siftup l k) (by rw [length_siftup]; omega)
    intro r2 hr2
    rcases eq_or_ne r2 k with he | he
    · rw [he]
      exact siftup_correct l k (by omega) (hsub (2 * k + 1) (by omega))
        (hsub (2 * k + 2) (by omega))
    · have hr2k : k < r2 := by omega
      cases hb : InSub k r2 with
      | true =>
        exact subHeap_mono (siftup_correct l k (by omega)
          (hsub (2 * k + 1) (by omega)) (hsub (2 * k + 2) (by omega))) hb
      | false =>
        intro j hj hjin hjne
        rw [length_siftup] at hj
        have hjk : InSub k j = false := by
          cases hc : InSub k j with
          | false => rfl
          | true =>
            rcases insub_comparable hc hjin with h4 | h4
            · rw [h4] at hb; exact absurd hb (by simp)
            · have := insub_le h4
              omega
        have hpjk : InSub k ((j - 1) / 2) = false := by
          cases hc : InSub k ((j - 1) / 2) with
          | false => rfl
          | true =>
            have hpjr : InSub r2 ((j - 1) / 2) = true := insub_parent hjin hjne
            rcases insub_comparable hc hpjr with h4 | h4
            · rw [h4] at hb; exact absurd hb (by simp)
            · have := insub_le h4
              omega
        rw [siftup_untouched l k j hjk, siftup_untouched l k ((j - 1) / 2) hpjk]
        exact hsub r2 (by omega) j hj hjin hjne

/-- `heapify` establishes the heap invariant on any list. -/
theorem heapify_isHeap (l : List Task) : IsHeap (heapify l) := by
  unfold heapify
  have hcore := heapifyAux_correct (l.length / 2) l (by omega) ?_ 0
  · intro j hj h0
    exact hcore j hj (insub_zero j) (by omega)
  · intro r hr j hj hjin hjne
    have hb := insub_bound hjin
    exfalso
    omega

/-! ### `heapify` of a valid heap is the identity

`cargar_tareas` re-heapifies the loaded snapshot.  When the snapshot is
the saved heap array (which satisfies the heap invariant), the
`_siftup` walks undo themselves exactly, so the loaded array is
unchanged; this underlies the round-trip law. -/

/-- `PChain sp p rp`: `rp` is the chain of strict ancestors of `p`, in
order, ending at the subtree root `sp`. -/
inductive PChain (sp : Nat) : Nat → List Nat → Prop
  | nil : PChain sp sp []
  | cons {p a : Nat} {rest : List Nat} : 0 < p → a = (p - 1) / 2 →
      PChain sp a rest → PChain sp p (a :: rest)

/-- `Shifted o l b rp`: walking up the ancestor chain `rp` from `b`,
every ancestor currently holds the original value of its path child. -/
inductive Shifted (o l : List Task) : Nat → List Nat → Prop
  | nil {b : Nat} : Shifted o l b []
  | cons {b a : Nat} {rest : List Nat} : gi l a = gi o b →
      Shifted o l a rest → Shifted o l b (a :: rest)

theorem pchain_mem_lt {sp : Nat} {p : Nat} {rp : List Nat}
    (hc : PChain sp p rp) : ∀ a ∈ rp, a < p := by
  induction hc with
  | nil => intro a ha; simp at ha
  | cons h0 hb hrest ih =>
    intro c hc2
    rcases List.mem_cons.mp hc2 with h | h
    · omega
    · have := ih c h
      omega

theorem pchain_le {sp : Nat} {p : Nat} {rp : List Nat}
    (hc : PChain sp p rp) : sp ≤ p := by
  induction hc with
  | nil => omega
  | cons h0 hb hrest ih => omega

theorem pchain_insub {sp : Nat} {p : Nat} {rp : List Nat}
    (hc : PChain sp p rp) : InSub sp p = true := by
  induction hc with
  | nil => simp
  | cons h0 hb hrest ih =>
    refine insub_of_parent h0 ?_
    rw [← hb]
    exact ih

theorem shifted_set {o : List Task} {l : List Task} {b : Nat} {rp : List Nat}
    {x : Nat} {v : Task} (hs : Shifted o l b rp) (hne : ∀ a ∈ rp, a ≠ x) :
    Shifted o (l.set x v) b rp := by
  induction hs with
  | nil => exact Shifted.nil
  | cons h1 h2 ih =>
    refine Shifted.cons ?_ (ih (fun c hc => hne c (List.mem_cons_of_mem _ hc)))
    rw [gi_set_ne l x v _ (fun hc => (hne _ (List.mem_cons_self _ _)) hc.symm)]
    exact h1

/-- Within a heap-ordered subtree, the subtree root is `<=` every index
of the subtree. -/
theorem subtree_root_le {o : List Task} {sp : Nat} (hsub : SubHeap o sp) :
    ∀ q, InSub sp q = true → q < o.length → Task.le (gi o sp) (gi o q) := by
  intro q
  induction q using Nat.strong_induction_on with
  | _ q ih =>
    intro hin hq
    rcases eq_or_ne q sp with he | he
    · rw [he]; exact task_le_refl _
    · have hle := insub_le hin
      have h0 : 0 < q := by
        rcases insub_bound hin with h | h <;> omega
      exact task_le_trans (ih ((q - 1) / 2) (by omega) (insub_parent hin he)
        (by omega)) (hsub q hq hin he)

/-- If the value at the bottom of an ancestor chain equals the subtree
root's value, every original value along the chain equals it too. -/
theorem pchain_all_eq {o : List Task} {sp : Nat} (hsub : SubHeap o sp) :
    ∀ {p : Nat} {rp : List Nat}, PChain sp p rp → p < o.length →
    Task.le (gi o p) (gi o sp) →
    ∀ a ∈ rp, gi o a = gi o sp := by
  intro p rp hc
  induction hc with
  | nil => intro _ _ a ha; simp at ha
  | cons h0 hb hrest ih =>
    rename_i p b rest
    intro hp hle a ha
    have hbp : b < p := by omega
    have hbin : InSub sp b = true := pchain_insub hrest
    have hspb : sp ≤ b := pchain_le hrest
    have hple : Task.le (gi o b) (gi o p) := by
      rw [hb]
      exact hsub p hp (insub_of_parent h0 (hb ▸ hbin)) (by omega)
    have hroot : Task.le (gi o sp) (gi o b) :=
      subtree_root_le hsub b hbin (by omega)
    have hbeq : gi o b = gi o sp :=
      task_le_antisymm (task_le_trans hple hle) hroot
    rcases List.mem_cons.mp ha with h | h
    · rw [h]; exact hbeq
    · exact ih (by omega) (by rw [hbeq]; exact task_le_refl _) a h

theorem gi_ext : ∀ (l1 l2 : List Task), l1.length = l2.length →
    (∀ q, q < l1.length → gi l1 q = gi l2 q) → l1 = l2 := by
  intro l1
  induction l1 with
  | nil =>
    intro l2 hlen _
    cases l2 with
    | nil => rfl
    | cons b bs => simp at hlen
  | cons a as ih =>
    intro l2 hlen hg
    cases l2 with
    | nil => simp at hlen
    | cons b bs =>
      have h1 : a = b := hg 0 (by simp)
      have h2 : as = bs := ih bs (by simpa using hlen)
        (fun q hq => hg (q + 1) (by simpa using hq))
      rw [h1, h2]

theorem shifted_all_eq {o : List Task} {v : Task} {l : List Task} {b : Nat}
    {rp : List Nat} (hsh : Shifted o l b rp) : gi o b = v →
    (∀ a ∈ rp, gi o a = v) → ∀ a ∈ rp, gi l a = v := by
  induction hsh with
  | nil => intro _ _ a ha; simp at ha
  | cons h1 h2 ih =>
    rename_i b2 c rest
    intro hb hall a ha
    rcases List.mem_cons.mp ha with h | h
    · rw [h, h1, hb]
    · exact ih (hall c (List.mem_cons_self c rest))
        (fun x hx => hall x (List.mem_cons_of_mem c hx)) a h

/-- The descending phase of `_siftup` on an already heap-ordered subtree
exactly restores the original array. -/
theorem siftdown_restore (o : List Task) (sp : Nat) (hsub : SubHeap o sp) :
    ∀ (l : List Task) (p : Nat) (rp : List Nat),
    l.length = o.length → p < o.length → PChain sp p rp →
    (∀ q, q < o.length → q ∉ rp → q ≠ p → gi l q = gi o q) →
    Shifted o l p rp →
    siftdown (gi o sp) sp l p = o := by
  intro l p
  induction l, p using siftdown.induct (gi o sp) sp with
  | case1 heap pos h1 h2 ih =>
    intro rp hlen hp hchain hout hsh
    rcases hchain with _ | ⟨h0, ha, hrest⟩
    · exact absurd h1 (Nat.lt_irrefl sp)
    · rename_i a rest
      rcases hsh with _ | ⟨hs1, hs2⟩
      rw [siftdown, dif_pos h1, if_pos h2]
      have hmem := pchain_mem_lt hrest
      have hap : a < pos := by omega
      apply ih rest
      · simp [hlen]
      · omega
      · rw [ha] at hrest; exact hrest
      · intro q hq hqr hqa
        rcases eq_or_ne q pos with he | he
        · rw [he, gi_set_eq heap pos _ (by omega), ← ha, hs1]
        · rw [gi_set_ne heap pos _ q he.symm]
          refine hout q hq ?_ he
          intro hmem2
          rcases List.mem_cons.mp hmem2 with h | h
          · rw [← ha] at hqa; exact hqa h
          · exact hqr h
      · rw [← ha]
        refine shifted_set hs2 ?_
        intro c hc
        have := hmem c hc
        omega
  | case2 heap pos h1 h2 =>
    intro rp hlen hp hchain hout hsh
    rcases hchain with _ | ⟨h0, ha, hrest⟩
    · exact absurd h1 (Nat.lt_irrefl sp)
    · rename_i a rest
      have hch : PChain sp pos (a :: rest) := PChain.cons h0 ha hrest
      rcases hsh with _ | ⟨hs1, hs2⟩
      have hshh : Shifted o heap pos (a :: rest) := Shifted.cons hs1 hs2
      rw [siftdown, dif_pos h1, if_neg h2]
      have hin : InSub sp pos = true := pchain_insub hch
      have hparent : gi heap ((pos - 1) / 2) = gi o pos := by
        rw [← ha, hs1]
      rw [hparent] at h2
      have hle1 : Task.le (gi o pos) (gi o sp) := task_le_of_not_lt h2
      have hle2 : Task.le (gi o sp) (gi o pos) := subtree_root_le hsub pos hin hp
      have heq : gi o pos = gi o sp := task_le_antisymm hle1 hle2
      have hall : ∀ c ∈ a :: rest, gi o c = gi o sp :=
        pchain_all_eq hsub hch hp (by rw [heq]; exact task_le_refl _)
      have halll : ∀ c ∈ a :: rest, gi heap c = gi o sp :=
        shifted_all_eq hshh heq hall
      apply gi_ext
      · simp [hlen]
      · intro q hq
        rw [List.length_set, hlen] at hq
        rcases eq_or_ne q pos with he | he
        · rw [he, gi_set_eq heap pos _ (by omega), heq]
        · rw [gi_set_ne heap pos _ q he.symm]
          by_cases hmem : q ∈ a :: rest
          · rw [halll q hmem, hall q hmem]
          · exact hout q hq hmem he
  | case3 heap pos h1 =>
    intro rp hlen hp hchain hout hsh
    have hpsp : pos = sp := by
      have := pchain_le hchain
      omega
    rcases hchain with _ | ⟨h0, ha, hrest⟩
    · rw [siftdown, dif_neg h1]
      apply gi_ext
      · simp [hlen]
      · intro q hq
        rw [List.length_set, hlen] at hq
        rcases eq_or_ne q sp with he | he
        · rw [he, gi_set_eq heap sp _ (by omega)]
        · rw [gi_set_ne heap sp _ q he.symm]
          exact hout q hq (by simp) he
    · rename_i a rest
      have h3 := pchain_le hrest
      exfalso
      omega

/-- The ascending phase of `_siftup` on an already heap-ordered subtree
exactly restores the original array. -/
theorem siftupLoop_restore (o : List Task) (sp : Nat) (hsub : SubHeap o sp) :
    ∀ (l : List Task) (p cp : Nat) (rp : List Nat),
    l.length = o.length → p < o.length → cp = 2 * p + 1 → PChain sp p rp →
    (∀ q, q < o.length → q ∉ rp → gi l q = gi o q) →
    Shifted o l p rp →
    siftupLoop (gi o sp) o.length sp l p cp = o := by
  intro l p cp
  induction l, p, cp using siftupLoop.induct (gi o sp) o.length sp with
  | case1 heap pos childpos h1 h2 ih =>
    intro rp hlen hp hcp hchain hout hsh
    subst hcp
    rw [siftupLoop, dif_pos h1, if_pos h2]
    have hmem := pchain_mem_lt hchain
    apply ih (pos :: rp)
    · simp [hlen]
    · omega
    · rfl
    · exact PChain.cons (by omega) (by omega) hchain
    · intro q hq hqr
      have hqp : q ≠ pos := fun hc => hqr (hc ▸ List.mem_cons_self pos rp)
      rw [gi_set_ne heap pos _ q hqp.symm]
      exact hout q hq (fun hm => hqr (List.mem_cons_of_mem pos hm))
    · refine Shifted.cons ?_ (shifted_set hsh (fun a ha => by
        have := hmem a ha; omega))
      rw [gi_set_eq heap pos _ (by omega)]
      exact hout (2 * pos + 1 + 1) (by omega)
        (fun hm => by have := hmem _ hm; omega)
  | case2 heap pos childpos h1 h2 ih =>
    intro rp hlen hp hcp hchain hout hsh
    subst hcp
    rw [siftupLoop, dif_pos h1, if_neg h2]
    have hmem := pchain_mem_lt hchain
    apply ih (pos :: rp)
    · simp [hlen]
    · omega
    · rfl
    · exact PChain.cons (by omega) (by omega) hchain
    · intro q hq hqr
      have hqp : q ≠ pos := fun hc => hqr (hc ▸ List.mem_cons_self pos rp)
      rw [gi_set_ne heap pos _ q hqp.symm]
      exact hout q hq (fun hm => hqr (List.mem_cons_of_mem pos hm))
    · refine Shifted.cons ?_ (shifted_set hsh (fun a ha => by
        have := hmem a ha; omega))
      rw [gi_set_eq heap pos _ (by omega)]
      exact hout (2 * pos + 1) (by omega)
        (fun hm => by have := hmem _ hm; omega)
  | case3 heap pos childpos h1 =>
    intro rp hlen hp hcp hchain hout hsh
    rw [siftupLoop, dif_neg h1]
    have hmem := pchain_mem_lt hchain
    apply siftdown_restore o sp hsub _ pos rp
    · simp [hlen]
    · exact hp
    · exact hchain
    · intro q hq hqr hqp
      rw [gi_set_ne heap pos _ q hqp.symm]
      exact hout q hq hqr
    · exact shifted_set hsh (fun a ha => by have := hmem a ha; omega)

/-- `_siftup` at `i` is the identity on a list whose subtree at `i` is
already heap-ordered. -/
theorem siftup_id {o : List Task} {i : Nat} (hsub : SubHeap o i)
    (hi : i < o.length) : siftup o i = o := by
  have hdef : siftup o i = siftupLoop (gi o i) o.length i o i (2 * i + 1) := rfl
  rw [hdef]
  exact siftupLoop_restore o i hsub o i (2 * i + 1) [] rfl hi rfl PChain.nil
    (fun q hq _ => rfl) Shifted.nil

theorem heapifyAux_id : ∀ (k : Nat) (o : List Task), k ≤ o.length → IsHeap o →
    heapifyAux k o = o
  | 0, o, _, _ => rfl
  | k + 1, o, hk, h => by
    rw [heapifyAux, siftup_id (subHeap_of_isHeap h k) (by omega)]
    exact heapifyAux_id k o (by omega) h

/-- `heapify` is the identity on a list already satisfying the heap
invariant. -/
theorem heapify_id {o : List Task} (h : IsHeap o) : heapify o = o :=
  heapifyAux_id _ o (by omega) h

/-! ## Merge sort (`merge_sort` / `mezclar`)

`mostrar_tareas_pendientes` sorts `self.heap` with a hand-written merge
sort comparing only `(prioridad, fecha)`. -/

/-- `mezclar(izquierda, derecha)`: merge two runs, taking from the left
when `(izquierda[0][0], izquierda[0][1]) <= (derecha[0][0], derecha[0][1])`;
the leftovers (`izquierda or derecha`) are appended. -/
def mezclar : List Task → List Task → List Task
  | [], derecha => derecha
  | izquierda, [] => izquierda
  | i :: is2, d :: ds =>
    if mle i d then i :: mezclar is2 (d :: ds)
    else d :: mezclar (i :: is2) ds
termination_by izquierda derecha => izquierda.length + derecha.length

/-- `merge_sort(lista)`: split at `len(lista)//2`, sort both halves
recursively, and `mezclar` them. -/
def merge_sort (lista : List Task) : List Task :=
  if lista.length ≤ 1 then lista
  else
    mezclar (merge_sort (lista.take (lista.length / 2)))
      (merge_sort (lista.drop (lista.length / 2)))
termination_by lista.length
decreasing_by
  · simp only [List.length_take]
    omega
  · simp only [List.length_drop]
    omega

theorem mezclar_nil_left : ∀ (b : List Task), mezclar [] b = b := by
  intro b
  rw [mezclar.eq_def]
  cases b <;> rfl

theorem mezclar_nil_right : ∀ (a : List Task), mezclar a [] = a := by
  intro a
  rw [mezclar.eq_def]
  cases a <;> rfl

theorem mezclar_cons_cons (i d : Task) (is2 ds : List Task) :
    mezclar (i :: is2) (d :: ds) =
      if mle i d then i :: mezclar is2 (d :: ds)
      else d :: mezclar (i :: is2) ds := by
  rw [mezclar.eq_def]

theorem mezclar_perm : ∀ (a b : List Task), (mezclar a b).Perm (a ++ b) := by
  intro a b
  induction a, b using mezclar.induct with
  | case1 derecha => rw [mezclar_nil_left]; simp
  | case2 izquierda h =>
    rw [mezclar_nil_right]
    simp
  | case3 i is2 d ds hle ih =>
    rw [mezclar_cons_cons]
    simp only [if_pos hle]
    exact ih.cons i
  | case4 i is2 d ds hle ih =>
    rw [mezclar_cons_cons]
    simp only [if_neg hle]
    exact (ih.cons d).trans (List.perm_middle).symm

theorem merge_sort_perm : ∀ (l : List Task), (merge_sort l).Perm l := by
  intro l
  induction l using merge_sort.induct with
  | case1 l h => rw [merge_sort, if_pos h]
  | case2 l h ih1 ih2 =>
    rw [merge_sort, if_neg h]
    refine (mezclar_perm _ _).trans ?_
    refine ((ih1.append ih2).trans ?_)
    rw [List.take_append_drop]

theorem mem_mezclar {x : Task} {a b : List Task} :
    x ∈ mezclar a b ↔ x ∈ a ∨ x ∈ b := by
  rw [(mezclar_perm a b).mem_iff, List.mem_append]

theorem mem_merge_sort {x : Task} {l : List Task} :
    x ∈ merge_sort l ↔ x ∈ l := (merge_sort_perm l).mem_iff

theorem mezclar_sorted : ∀ {a b : List Task}, List.Sorted mle a →
    List.Sorted mle b → List.Sorted mle (mezclar a b) := by
  intro a b
  induction a, b using mezclar.induct with
  | case1 derecha => intro _ hb; rw [mezclar_nil_left]; exact hb
  | case2 izquierda h =>
    intro ha _
    rw [mezclar_nil_right]
    exact ha
  | case3 i is2 d ds hle ih =>
    intro ha hb
    rw [mezclar_cons_cons]
    simp only [if_pos hle]
    rw [List.sorted_cons] at ha ⊢
    refine ⟨?_, ih ha.2 hb⟩
    intro x hx
    rcases mem_mezclar.mp hx with h | h
    · exact ha.1 x h
    · rcases List.mem_cons.mp h with h2 | h2
      · rw [h2]; exact hle
      · rw [List.sorted_cons] at hb
        exact mle_trans hle (hb.1 x h2)
  | case4 i is2 d ds hle ih =>
    intro ha hb
    rw [mezclar_cons_cons]
    simp only [if_neg hle]
    rw [List.sorted_cons] at hb ⊢
    have hdi : mle d i := mle_of_not_mle hle
    refine ⟨?_, ih ha hb.2⟩
    intro x hx
    rcases mem_mezclar.mp hx with h | h
    · rcases List.mem_cons.mp h with h2 | h2
      · rw [h2]; exact hdi
      · rw [List.sorted_cons] at ha
        exact mle_trans hdi (ha.1 x h2)
    · exact hb.1 x h

theorem merge_sort_sorted : ∀ (l : List Task), List.Sorted mle (merge_sort l) := by
  intro l
  induction l using merge_sort.induct with
  | case1 l h =>
    rw [merge_sort, if_pos h]
    match l, h with
    | [], _ => exact List.sorted_nil
    | [x], _ => exact List.sorted_singleton x
  | case2 l h ih1 ih2 =>
    rw [merge_sort, if_neg h]
    exact mezclar_sorted ih1 ih2

/-- The sort key `(prioridad, fecha)` of a task. -/
def tkey (t : Task) : Int × String := (t.prioridad, t.fecha)

theorem mcmp_eq_iff {t u : Task} : mcmp t u = .eq ↔ tkey t = tkey u := by
  constructor
  · intro h
    exact lawCmpPF.eq_of h
  · intro h
    unfold mcmp
    unfold tkey at h
    rw [h]
    exact lawCmpPF.refl _

theorem tkey_ne_of_mlt {t u : Task} (h : ¬ mle u t) : tkey t ≠ tkey u := by
  intro hc
  have h2 : mcmp u t = .gt := not_ne_iff.mp h
  have h3 : mcmp u t = .eq := by
    unfold mcmp
    unfold tkey at hc
    rw [← hc]
    exact lawCmpPF.refl _
  rw [h2] at h3
  simp at h3

theorem filter_nil_of : ∀ (l : List Task) (p : Task → Bool),
    (∀ x ∈ l, p x = false) → l.filter p = []
  | [], _, _ => rfl
  | t :: ts, p, h => by
    rw [List.filter_cons, h t (List.mem_cons_self t ts)]
    simp only [Bool.false_eq_true, if_neg]
    exact filter_nil_of ts p (fun x hx => h x (List.mem_cons_of_mem t hx))

/-- Stability of `mezclar`: on sorted runs, the records of any fixed
`(prioridad, fecha)` key come out as those of the left run followed by
those of the right run. -/
theorem mezclar_filter (k : Int × String) : ∀ (a b : List Task),
    List.Sorted mle a → List.Sorted mle b →
    (mezclar a b).filter (fun t => decide (tkey t = k)) =
      a.filter (fun t => decide (tkey t = k)) ++
      b.filter (fun t => decide (tkey t = k)) := by
  intro a b
  induction a, b using mezclar.induct with
  | case1 derecha =>
    intro _ _
    rw [mezclar_nil_left]
    simp
  | case2 izquierda h =>
    intro _ _
    rw [mezclar_nil_right]
    simp
  | case3 i is2 d ds hle ih =>
    intro ha hb
    rw [List.sorted_cons] at ha
    rw [mezclar_cons_cons]
    simp only [if_pos hle]
    rw [List.filter_cons, List.filter_cons, ih ha.2 hb]
    by_cases hk : tkey i = k <;> simp [hk]
  | case4 i is2 d ds hle ih =>
    intro ha hb
    rw [List.sorted_cons] at hb
    rw [mezclar_cons_cons]
    simp only [if_neg hle]
    rw [List.filter_cons, ih ha hb.2]
    by_cases hk : tkey d = k
    · have hleft : (i :: is2).filter (fun t => decide (tkey t = k)) = [] := by
        apply filter_nil_of
        intro x hx
        have hlex : mle i x := by
          rcases List.mem_cons.mp hx with h2 | h2
          · rw [h2]; exact mle_refl i
          · rw [List.sorted_cons] at ha
            exact ha.1 x h2
        have hne : tkey x ≠ tkey d := by
          refine Ne.symm (tkey_ne_of_mlt ?_)
          intro hcon
          exact hle (mle_trans hlex hcon)
        simp only [decide_eq_false_iff_not]
        intro hcc
        rw [hcc] at hne
        exact hne hk.symm
      rw [hleft]
      simp [hk, List.filter_cons, hleft]
    · simp [hk, List.filter_cons]

/-- Stability of `merge_sort`: the records of any fixed key keep the
relative order they had in the input array. -/
theorem merge_sort_filter (k : Int × String) : ∀ (l : List Task),
    (merge_sort l).filter (fun t => decide (tkey t = k)) =
      l.filter (fun t => decide (tkey t = k)) := by
  intro l
  induction l using merge_sort.induct with
  | case1 l h => rw [merge_sort, if_pos h]
  | case2 l h ih1 ih2 =>
    rw [merge_sort, if_neg h,
      mezclar_filter k _ _ (merge_sort_sorted _) (merge_sort_sorted _), ih1, ih2,
      ← List.filter_append, List.take_append_drop]

theorem length_heappop : ∀ {l : List Task} {t : Task} {h2 : List Task},
    heappop l = some (t, h2) → h2.length + 1 = l.length := by
  intro l t h2 h
  match l, h with
  | [x], h =>
    simp [heappop] at h
    rw [← h.2]
    rfl
  | x :: y :: ys, h =>
    simp only [heappop, Option.some.injEq, Prod.mk.injEq] at h
    rw [← h.2, length_siftup]
    simp

/-! ## Date handling

`añadir_tarea` parses `fecha_vencimiento` with
`datetime.strptime(fecha_vencimiento, "%Y-%m-%d")` and stores
`.isoformat()`.  CPython's `%Y` compiles to the regex `\d\d\d\d` —
exactly four digits, where `\d` in a `str` pattern matches any Unicode
decimal digit (category `Nd`) and `int()` converts it by its decimal
value; `%m` compiles to `1[0-2]|0[1-9]|[1-9]` (ASCII-only classes), and
`%d` to `3[01]|[12]\d|0[1-9]|[1-9]`, whose only non-ASCII position is
the `\d` after `[12]`.  The whole string must be consumed, and the
`datetime` constructor rejects out-of-range days and year 0. -/

/-- Numeric value of an ASCII digit character. -/
def digitVal (c : Char) : Nat := c.toNat - 48

/-- First code point (the zero) of every decimal-digit block of Unicode
category `Nd` (Unicode 14.0, as shipped with CPython 3.11): the
characters a `str`-pattern `\d` matches and `int()` converts. -/
def ndZero : List Nat :=
  [0x30, 0x660, 0x6F0, 0x7C0, 0x966, 0x9E6, 0xA66, 0xAE6,
   0xB66, 0xBE6, 0xC66, 0xCE6, 0xD66, 0xDE6, 0xE50, 0xED0,
   0xF20, 0x1040, 0x1090, 0x17E0, 0x1810, 0x1946, 0x19D0, 0x1A80,
   0x1A90, 0x1B50, 0x1BB0, 0x1C40, 0x1C50, 0xA620, 0xA8D0, 0xA900,
   0xA9D0, 0xA9F0, 0xAA50, 0xABF0, 0xFF10, 0x104A0, 0x10D30, 0x11066,
   0x110F0, 0x11136, 0x111D0, 0x112F0, 0x11450, 0x114D0, 0x11650, 0x116C0,
   0x11730, 0x118E0, 0x11950, 0x11C50, 0x11D50, 0x11DA0, 0x16A60, 0x16AC0,
   0x16B50, 0x1D7CE, 0x1D7D8, 0x1D7E2, 0x1D7EC, 0x1D7F6, 0x1E140, 0x1E2F0,
   0x1E950, 0x1FBF0]

/-- The zero of the `Nd` block `c` lies in, when `c` is a Unicode
decimal digit.  Every `Nd` block is ten consecutive code points with
decimal values `0..9`. -/
def ndBase (c : Char) : Option Nat :=
  ndZero.find? (fun z => decide (z ≤ c.toNat) && decide (c.toNat ≤ z + 9))

/-- The regex class `\d` of a CPython `str` pattern: any Unicode
decimal digit. -/
def isNd (c : Char) : Bool := (ndBase c).isSome

/-- Decimal value of a Unicode decimal digit, as `int()` converts it
(`0` on non-digits, which the parsers never consult). -/
def digitValU (c : Char) : Nat :=
  match ndBase c with
  | some z => c.toNat - z
  | none => 0

/-- Gregorian leap-year rule used by `datetime`. -/
def esLeap (y : Nat) : Bool := y % 4 == 0 && (y % 100 != 0 || y % 400 == 0)

/-- Days in a month, as validated by the `datetime` constructor. -/
def daysInMonth (y m : Nat) : Nat :=
  if m = 2 then (if esLeap y then 29 else 28)
  else if m = 4 ∨ m = 6 ∨ m = 9 ∨ m = 11 then 30
  else 31

/-- The `%m-` part of the pattern: a one- or two-digit month `1..12`
followed by the literal `-`. -/
def parseMonth : List Char → Option (Nat × List Char)
  | a :: '-' :: rest =>
    if a.isDigit ∧ 1 ≤ digitVal a then some (digitVal a, rest) else none
  | a :: b :: '-' :: rest =>
    if a.isDigit ∧ b.isDigit ∧ 1 ≤ 10 * digitVal a + digitVal b ∧
        10 * digitVal a + digitVal b ≤ 12 then
      some (10 * digitVal a + digitVal b, rest)
    else none
  | _ => none

/-- The final `%d` part, the regex `3[01]|[12]\d|0[1-9]|[1-9]`
consuming the rest of the string (`strptime` rejects unconverted
trailing data): only the digit after an ASCII `1` or `2` may be a
non-ASCII Unicode decimal digit. -/
def parseDay : List Char → Option Nat
  | [a] => if a.isDigit ∧ 1 ≤ digitVal a then some (digitVal a) else none
  | [a, b] =>
    if (a = '3' ∧ (b = '0' ∨ b = '1')) ∨
        ((a = '1' ∨ a = '2') ∧ isNd b) ∨
        (a = '0' ∧ b.isDigit ∧ 1 ≤ digitVal b) then
      some (10 * digitVal a + digitValU b)
    else none
  | _ => none

/-- `datetime.strptime(s, "%Y-%m-%d")`, returning the calendar triple
`(year, month, day)` or `none` where CPython raises `ValueError`. -/
def strptimeYmd (s : String) : Option (Nat × Nat × Nat) :=
  match s.data with
  | y1 :: y2 :: y3 :: y4 :: '-' :: rest =>
    if isNd y1 ∧ isNd y2 ∧ isNd y3 ∧ isNd y4 then
      match parseMonth rest with
      | some (m, rest2) =>
        match parseDay rest2 with
        | some d =>
          let y := 1000 * digitValU y1 + 100 * digitValU y2 +
            10 * digitValU y3 + digitValU y4
          if 1 ≤ y ∧ d ≤ daysInMonth y m then some (y, m, d) else none
        | none => none
      | none => none
    else none
  | _ => none

/-- Zero-padded two-digit field of `datetime.isoformat()`. -/
def pad2 (n : Nat) : String := if n < 10 then "0" ++ toString n else toString n

/-- Zero-padded four-digit year of `datetime.isoformat()`. -/
def pad4 (y : Nat) : String :=
  if y < 10 then "000" ++ toString y
  else if y < 100 then "00" ++ toString y
  else if y < 1000 then "0" ++ toString y
  else toString y

/-- `datetime(y, m, d).isoformat()`: the canonical ISO-8601 string
stored as the task's `fecha`. -/
def isoformat (y m d : Nat) : String :=
  pad4 y ++ "-" ++ pad2 m ++ "-" ++ pad2 d ++ "T00:00:00"

/-! ## The task manager state and operations -/

/-- The mutable state of a `GestorTareas` object: the heap list, the
completed-name set, and the contents of the persistence file
(`none` models a missing file; JSON round-trips the task tuples
value-faithfully). -/
structure GestorTareas where
  heap : List Task
  tareas_completadas : Finset String
  archivo : Option (List Task)
deriving DecidableEq

/-- `guardar_tareas`: dump the heap list to the persistence file. -/
def guardar_tareas (g : GestorTareas) : GestorTareas :=
  { g with archivo := some g.heap }

/-- `cargar_tareas`: load the file into the heap and `heapq.heapify` it;
on a missing file start with an empty list. -/
def cargar_tareas (g : GestorTareas) : GestorTareas :=
  match g.archivo with
  | some tareas => { g with heap := heapify tareas }
  | none => { g with heap := [] }

/-- `GestorTareas.__init__`: empty heap and completed set, then
`cargar_tareas()`. -/
def gestorInit (archivo : Option (List Task)) : GestorTareas :=
  cargar_tareas { heap := [], tareas_completadas := ∅, archivo := archivo }

/-- Code points Python's `str.strip()` removes (`Py_UNICODE_ISSPACE`,
equivalently single-character `str.isspace()`): ASCII whitespace, the
separator controls `U+001C..U+001F`, `U+0085`, `U+00A0`, and the
Unicode space and line/paragraph separators. -/
def pyWhitespace : List Nat :=
  [0x9, 0xA, 0xB, 0xC, 0xD, 0x1C, 0x1D, 0x1E, 0x1F, 0x20, 0x85, 0xA0,
   0x1680, 0x2000, 0x2001, 0x2002, 0x2003, 0x2004, 0x2005, 0x2006,
   0x2007, 0x2008, 0x2009, 0x200A, 0x2028, 0x2029, 0x202F, 0x205F,
   0x3000]

/-- The whitespace test behind Python's `str.strip()`. -/
def esBlanco (c : Char) : Bool := pyWhitespace.contains c.toNat

/-- Python's `nombre.strip()` (on the ASCII whitespace set). -/
def pyStrip (s : String) : String :=
  String.mk (((s.data.dropWhile esBlanco).reverse.dropWhile esBlanco).reverse)

/-- The priority argument of `añadir_tarea`: Python is dynamically
typed, so the caller may pass an `int` or any non-`int` value (such as
the float `1.5`); `nonInt` stands for the latter. -/
inductive PrioArg where
  | int (i : Int)
  | nonInt
deriving DecidableEq

/-- The `ValueError`s that `añadir_tarea` can raise, by cause. -/
inductive AddError where
  | invalidName
  | invalidPriority
  | invalidDate
deriving DecidableEq

/-- `añadir_tarea(nombre, prioridad, fecha_vencimiento, dependencias)`:
validate the name, the priority type and the date; on success push the
tuple `(prioridad, fecha, nombre, dependencias)` and save. -/
def «añadir_tarea» (g : GestorTareas) (nombre : String) (prioridad : PrioArg)
    (fecha_vencimiento : String) (dependencias : List String) :
    Except AddError GestorTareas :=
  if pyStrip nombre = "" then .error .invalidName
  else
    match prioridad with
    | .nonInt => .error .invalidPriority
    | .int p =>
      match strptimeYmd fecha_vencimiento with
      | none => .error .invalidDate
      | some (y, m, d) =>
        .ok (guardar_tareas
          { g with heap := heappush g.heap ⟨p, isoformat y m d, nombre, dependencias⟩ })

/-- `mostrar_tareas_pendientes`: the sequence of records printed, i.e.
`merge_sort(self.heap)`. -/
def mostrar_tareas_pendientes (g : GestorTareas) : List Task :=
  merge_sort g.heap

/-- The `while self.heap` loop of `completar_tarea`: pop every record,
collecting non-matching ones in order and marking the name complete
when matched. -/
def completarLoop (nombre : String) (heap : List Task) (encontrada : Bool)
    (nuevas : List Task) (comp : Finset String) :
    Bool × List Task × Finset String :=
  match h : heappop heap with
  | none => (encontrada, nuevas, comp)
  | some (t, rest) =>
    if t.nombre = nombre then
      completarLoop nombre rest true nuevas (insert nombre comp)
    else
      completarLoop nombre rest encontrada (nuevas ++ [t]) comp
termination_by heap.length
decreasing_by
  all_goals
    have := length_heappop h
    omega

/-- `completar_tarea(nombre)`: drain the heap, rebuild it from the
non-matching records with `heapify`, save, and report whether a record
was found. -/
def completar_tarea (g : GestorTareas) (nombre : String) :
    GestorTareas × Bool :=
  let r := completarLoop nombre g.heap false [] g.tareas_completadas
  (guardar_tareas { g with heap := heapify r.2.1, tareas_completadas := r.2.2 },
    r.1)

/-- The `while self.heap` loop of `obtener_tarea_mayor_prioridad`: peek
the root; if all its dependencies are completed it is the answer (heap
unchanged), otherwise pop it destructively and continue. -/
def obtenerLoop (heap : List Task) (comp : Finset String) :
    Option Task × List Task :=
  match heap with
  | [] => (none, [])
  | t :: rest =>
    if t.dependencias.all (fun dep => decide (dep ∈ comp)) then
      (some t, t :: rest)
    else
      match h : heappop (t :: rest) with
      | some (_, h2) => obtenerLoop h2 comp
      | none => (none, [])
termination_by heap.length
decreasing_by
  have := length_heappop h
  simp at this ⊢
  omega

/-- `obtener_tarea_mayor_prioridad()`: the printed record (if any) and
the state after the scan.  No save is performed. -/
def obtener_tarea_mayor_prioridad (g : GestorTareas) :
    Option Task × GestorTareas :=
  let r := obtenerLoop g.heap g.tareas_completadas
  (r.1, { g with heap := r.2 })

/-- Ghost variant of `obtenerLoop` that also returns the list of
records destructively discarded by the scan, in discard order. -/
def obtenerLoopDisc (heap : List Task) (comp : Finset String) :
    Option Task × List Task × List Task :=
  match heap with
  | [] => (none, [], [])
  | t :: rest =>
    if t.dependencias.all (fun dep => decide (dep ∈ comp)) then
      (some t, t :: rest, [])
    else
      match h : heappop (t :: rest) with
      | some (_, h2) =>
        let r := obtenerLoopDisc h2 comp
        (r.1, r.2.1, t :: r.2.2)
      | none => (none, [], [t])
termination_by heap.length
decreasing_by
  have := length_heappop h
  simp at this ⊢
  omega

theorem heappop_none : ∀ {l : List Task}, heappop l = none → l = [] := by
  intro l h
  cases l with
  | nil => rfl
  | cons x xs =>
    cases xs with
    | nil => simp [heappop] at h
    | cons y ys => simp [heappop] at h

theorem heappop_fst : ∀ {l : List Task} {t : Task} {h2 : List Task},
    heappop l = some (t, h2) → l.head? = some t := by
  intro l t h2 h
  match l, h with
  | [x], h =>
    simp [heappop] at h
    rw [h.1]
    rfl
  | x :: y :: ys, h =>
    simp only [heappop, Option.some.injEq, Prod.mk.injEq] at h
    rw [h.1]
    rfl

/-- Ready test used by `obtener_tarea_mayor_prioridad`. -/
theorem all_deps_iff {t : Task} {c : Finset String} :
    t.dependencias.all (fun dep => decide (dep ∈ c)) = true ↔
      ∀ dep ∈ t.dependencias, dep ∈ c := by
  rw [List.all_eq_true]
  constructor
  · intro h dep hdep
    exact of_decide_eq_true (h dep hdep)
  · intro h dep hdep
    exact decide_eq_true (h dep hdep)

theorem obtenerLoop_nil (c : Finset String) : obtenerLoop [] c = (none, []) := by
  rw [obtenerLoop]

theorem obtenerLoop_ready {t : Task} {c : Finset String} (rest : List Task)
    (hready : t.dependencias.all (fun dep => decide (dep ∈ c)) = true) :
    obtenerLoop (t :: rest) c = (some t, t :: rest) := by
  rw [obtenerLoop]
  simp only [if_pos hready]

theorem obtenerLoop_blocked {t : Task} {c : Finset String} {rest : List Task}
    {x : Task} {h2 : List Task}
    (hready : ¬ t.dependencias.all (fun dep => decide (dep ∈ c)) = true)
    (hpop : heappop (t :: rest) = some (x, h2)) :
    obtenerLoop (t :: rest) c = obtenerLoop h2 c := by
  rw [obtenerLoop]
  simp only [if_neg hready]
  split
  · rename_i x2 h22 heq
    rw [hpop] at heq
    simp only [Option.some.injEq, Prod.mk.injEq] at heq
    rw [heq.2]
  · rename_i heq
    rw [hpop] at heq
    simp at heq

theorem obtenerLoopDisc_nil (c : Finset String) :
    obtenerLoopDisc [] c = (none, [], []) := by
  rw [obtenerLoopDisc]

theorem obtenerLoopDisc_ready {t : Task} {c : Finset String} (rest : List Task)
    (hready : t.dependencias.all (fun dep => decide (dep ∈ c)) = true) :
    obtenerLoopDisc (t :: rest) c = (some t, t :: rest, []) := by
  rw [obtenerLoopDisc]
  simp only [if_pos hready]

theorem obtenerLoopDisc_blocked {t : Task} {c : Finset String} {rest : List Task}
    {x : Task} {h2 : List Task}
    (hready : ¬ t.dependencias.all (fun dep => decide (dep ∈ c)) = true)
    (hpop : heappop (t :: rest) = some (x, h2)) :
    obtenerLoopDisc (t :: rest) c = ((obtenerLoopDisc h2 c).1,
      (obtenerLoopDisc h2 c).2.1, t :: (obtenerLoopDisc h2 c).2.2) := by
  rw [obtenerLoopDisc]
  simp only [if_neg hready]
  split
  · rename_i x2 h22 heq
    rw [hpop] at heq
    simp only [Option.some.injEq, Prod.mk.injEq] at heq
    rw [heq.2]
  · rename_i heq
    rw [hpop] at heq
    simp at heq

/-- `obtenerLoop` is the first two components of the ghost variant. -/
theorem obtenerLoop_eq_disc : ∀ (h : List Task) (c : Finset String),
    obtenerLoop h c = ((obtenerLoopDisc h c).1, (obtenerLoopDisc h c).2.1) := by
  intro h c
  induction h, c using obtenerLoop.induct with
  | case1 c => rw [obtenerLoop_nil, obtenerLoopDisc_nil]
  | case2 c t rest hready =>
    rw [obtenerLoop_ready rest hready, obtenerLoopDisc_ready rest hready]
  | case3 c t rest hready x h2 hpop ih =>
    rw [obtenerLoop_blocked hready hpop, obtenerLoopDisc_blocked hready hpop, ih]
  | case4 c t rest hready hpop =>
    have := heappop_isSome (l := t :: rest) (by simp)
    rw [hpop] at this
    simp at this

/-- Full behavior of the destructive dependency-gating scan: the final
heap is a valid heap made of original records; `none` is returned
exactly on exhaustion; a returned record is the root of the unchanged
remaining heap, has all dependencies completed, and is `<=` every
remaining record; every discarded record is blocked, absent from the
remaining heap, and the discards plus the remainder permute the input. -/
theorem obtenerLoopDisc_spec : ∀ (h : List Task) (c : Finset String),
    IsHeap h →
    IsHeap (obtenerLoopDisc h c).2.1 ∧
    (∀ x ∈ (obtenerLoopDisc h c).2.1, x ∈ h) ∧
    ((obtenerLoopDisc h c).1 = none → (obtenerLoopDisc h c).2.1 = []) ∧
    (∀ t, (obtenerLoopDisc h c).1 = some t →
      (obtenerLoopDisc h c).2.1.head? = some t ∧
      (∀ dep ∈ t.dependencias, dep ∈ c) ∧
      (∀ x ∈ (obtenerLoopDisc h c).2.1, Task.le t x)) ∧
    (∀ d ∈ (obtenerLoopDisc h c).2.2,
      ¬ ∀ dep ∈ d.dependencias, dep ∈ c) ∧
    (∀ d ∈ (obtenerLoopDisc h c).2.2, d ∉ (obtenerLoopDisc h c).2.1) ∧
    ((obtenerLoopDisc h c).2.2 ++ (obtenerLoopDisc h c).2.1).Perm h := by
  intro h c
  induction h, c using obtenerLoopDisc.induct with
  | case1 c =>
    intro _
    rw [obtenerLoopDisc_nil]
    refine ⟨?_, by simp, by simp, by simp, by simp, by simp, by simp⟩
    intro j hj h0
    simp at hj
  | case2 c t rest hready =>
    intro hh
    rw [obtenerLoopDisc_ready rest hready]
    refine ⟨hh, by simp, by simp, ?_, by simp, by simp, by simp⟩
    intro t2 ht2
    simp only [Option.some.injEq] at ht2
    subst ht2
    refine ⟨rfl, all_deps_iff.mp hready, ?_⟩
    intro x hx
    exact root_min_mem hh hx
  | case3 c t rest hready x h2 hpop ih =>
    intro hh
    have hx : x = t := by
      have h3 := heappop_fst hpop
      simp at h3
      exact h3.symm
    have hperm : (t :: h2).Perm (t :: rest) := by
      have h4 := heappop_perm hpop
      rw [hx] at h4
      exact h4
    have hmem2 : ∀ z ∈ h2, z ∈ t :: rest := by
      intro z hz
      exact hperm.mem_iff.mp (List.mem_cons_of_mem t hz)
    have hh2 : IsHeap h2 := heappop_isHeap hpop hh
    obtain ⟨i1, i2, i3, i4, i5, i6, i7⟩ := ih hh2
    rw [obtenerLoopDisc_blocked hready hpop]
    refine ⟨i1, ?_, i3, i4, ?_, ?_, ?_⟩
    · intro z hz
      exact hmem2 z (i2 z hz)
    · intro d hd
      rcases List.mem_cons.mp hd with hdt | hdt
      · rw [hdt]
        intro hcon
        exact hready (all_deps_iff.mpr hcon)
      · exact i5 d hdt
    · intro d hd
      rcases List.mem_cons.mp hd with hdt | hdt
      · intro hcon
        have hdh2 : d ∈ h2 := i2 d hcon
        rcases hfin : (obtenerLoopDisc h2 c).1 with _ | f
        · rw [i3 hfin] at hcon
          simp at hcon
        · obtain ⟨hf1, hf2, hf3⟩ := i4 f hfin
          have hfd : Task.le f d := hf3 d hcon
          have hfh : f ∈ t :: rest := by
            refine hmem2 f (i2 f ?_)
            rcases hfe : (obtenerLoopDisc h2 c).2.1 with _ | ⟨f2, ff⟩
            · rw [hfe] at hf1; simp at hf1
            · rw [hfe] at hf1
              simp at hf1
              rw [hf1]
              exact List.mem_cons_self f ff
          have hdf : Task.le d f := by
            have h5 : Task.le t f := root_min_mem hh hfh
            rw [hdt]
            exact h5
          have hde : d = f := task_le_antisymm hdf hfd
          rw [← hde, hdt] at hf2
          exact hready (all_deps_iff.mpr hf2)
      · exact i6 d hdt
    · refine List.Perm.trans ?_ hperm
      exact (i7.cons t)
  | case4 c t rest hready hpop =>
    have h3 := heappop_isSome (l := t :: rest) (by simp)
    rw [hpop] at h3
    simp at h3

theorem completarLoop_none {nombre : String} {heap : List Task} {enc : Bool}
    {nuevas : List Task} {comp : Finset String} (hpop : heappop heap = none) :
    completarLoop nombre heap enc nuevas comp = (enc, nuevas, comp) := by
  rw [completarLoop]
  split
  · rfl
  · rename_i t rest heq
    rw [hpop] at heq
    simp at heq

theorem completarLoop_match {nombre : String} {heap : List Task} {enc : Bool}
    {nuevas : List Task} {comp : Finset String} {t : Task} {rest : List Task}
    (hpop : heappop heap = some (t, rest)) (hname : t.nombre = nombre) :
    completarLoop nombre heap enc nuevas comp =
      completarLoop nombre rest true nuevas (insert nombre comp) := by
  rw [completarLoop]
  split
  · rename_i heq
    rw [hpop] at heq
    simp at heq
  · rename_i t2 rest2 heq
    rw [hpop] at heq
    simp only [Option.some.injEq, Prod.mk.injEq] at heq
    rw [← heq.1, ← heq.2, if_pos hname]

theorem completarLoop_nomatch {nombre : String} {heap : List Task} {enc : Bool}
    {nuevas : List Task} {comp : Finset String} {t : Task} {rest : List Task}
    (hpop : heappop heap = some (t, rest)) (hname : ¬ t.nombre = nombre) :
    completarLoop nombre heap enc nuevas comp =
      completarLoop nombre rest enc (nuevas ++ [t]) comp := by
  rw [completarLoop]
  split
  · rename_i heq
    rw [hpop] at heq
    simp at heq
  · rename_i t2 rest2 heq
    rw [hpop] at heq
    simp only [Option.some.injEq, Prod.mk.injEq] at heq
    rw [← heq.1, ← heq.2, if_neg hname]

/-- Full behavior of the `completar_tarea` drain loop: the flag reports
whether some record carries the name, the surviving records are the
accumulator plus the non-matching records, and the completed set gains
the name exactly when a record matched. -/
theorem completarLoop_spec (nombre : String) : ∀ (heap : List Task) (enc : Bool)
    (nuevas : List Task) (comp : Finset String),
    ((completarLoop nombre heap enc nuevas comp).1 = true ↔
      enc = true ∨ ∃ t ∈ heap, t.nombre = nombre) ∧
    (completarLoop nombre heap enc nuevas comp).2.1.Perm
      (nuevas ++ heap.filter (fun t => !(t.nombre == nombre))) ∧
    ((∃ t ∈ heap, t.nombre = nombre) →
      (completarLoop nombre heap enc nuevas comp).2.2 = insert nombre comp) ∧
    (¬ (∃ t ∈ heap, t.nombre = nombre) →
      (completarLoop nombre heap enc nuevas comp).2.2 = comp) := by
  intro heap enc nuevas comp
  induction heap, enc, nuevas, comp using completarLoop.induct nombre with
  | case1 heap enc nuevas comp hpop =>
    have he : heap = [] := heappop_none hpop
    subst he
    rw [completarLoop_none hpop]
    refine ⟨by simp, by simp, ?_, fun _ => rfl⟩
    intro hex
    simp at hex
  | case2 heap enc nuevas comp t rest hpop hname ih =>
    rw [completarLoop_match hpop hname]
    have hperm := heappop_perm hpop
    have htmem : t ∈ heap := hperm.mem_iff.mp (List.mem_cons_self t rest)
    obtain ⟨a1, a2, a3, a4⟩ := ih
    refine ⟨?_, ?_, ?_, ?_⟩
    · constructor
      · intro _
        exact Or.inr ⟨t, htmem, hname⟩
      · intro _
        exact a1.mpr (Or.inl rfl)
    · refine a2.trans ?_
      refine List.Perm.append_left nuevas ?_
      have hf : (t :: rest).filter (fun z => !(z.nombre == nombre)) =
          rest.filter (fun z => !(z.nombre == nombre)) := by
        rw [List.filter_cons]
        simp [hname]
      rw [← hf]
      exact hperm.filter _
    · intro _
      by_cases hex : ∃ z ∈ rest, z.nombre = nombre
      · rw [a3 hex, Finset.insert_idem]
      · rw [a4 hex]
    · intro hex
      exact absurd ⟨t, htmem, hname⟩ hex
  | case3 heap enc nuevas comp t rest hpop hname ih =>
    rw [completarLoop_nomatch hpop hname]
    have hperm := heappop_perm hpop
    obtain ⟨a1, a2, a3, a4⟩ := ih
    have hiff : (∃ z ∈ heap, z.nombre = nombre) ↔
        ∃ z ∈ rest, z.nombre = nombre := by
      constructor
      · rintro ⟨z, hz, hzn⟩
        rcases List.mem_cons.mp (hperm.mem_iff.mpr hz) with h | h
        · rw [h] at hzn; exact absurd hzn hname
        · exact ⟨z, h, hzn⟩
      · rintro ⟨z, hz, hzn⟩
        exact ⟨z, hperm.mem_iff.mp (List.mem_cons_of_mem t hz), hzn⟩
    refine ⟨?_, ?_, ?_, ?_⟩
    · rw [a1, hiff]
    · refine a2.trans ?_
      have hf : (t :: rest).filter (fun z => !(z.nombre == nombre)) =
          t :: rest.filter (fun z => !(z.nombre == nombre)) := by
        rw [List.filter_cons]
        simp [hname]
      have he : nuevas ++ [t] ++ rest.filter (fun z => !(z.nombre == nombre)) =
          nuevas ++ (t :: rest.filter (fun z => !(z.nombre == nombre))) := by
        simp
      rw [he, ← hf]
      exact List.Perm.append_left nuevas (hperm.filter _)
    · intro hex
      exact a3 (hiff.mp hex)
    · intro hex
      exact a4 (fun hc => hex (hiff.mpr hc))

theorem filter_id_of : ∀ (l : List Task) (p : Task → Bool),
    (∀ x ∈ l, p x = true) → l.filter p = l
  | [], _, _ => rfl
  | t :: ts, p, h => by
    rw [List.filter_cons, h t (List.mem_cons_self t ts)]
    simp only [if_pos]
    rw [filter_id_of ts p (fun x hx => h x (List.mem_cons_of_mem t hx))]

/-! ## The claims -/

/-- C1: on any store whose heap array satisfies the heap invariant,
`obtener_tarea_mayor_prioridad` returns a record only if every name in
its `dependencias` is in the completed-set; the returned record is the
root of the store it leaves behind, still a member of it (pure peek),
and minimal for the `(prioridad, fecha)` order among all remaining
pending records; and it reports failure (the `NoReadyTaskError` print)
exactly when the scan has exhausted the store. -/
theorem next_ready_task_spec (g : GestorTareas) (hh : IsHeap g.heap) :
    (∀ t, (obtener_tarea_mayor_prioridad g).1 = some t →
      (∀ dep ∈ t.dependencias, dep ∈ g.tareas_completadas) ∧
      (obtener_tarea_mayor_prioridad g).2.heap.head? = some t ∧
      t ∈ (obtener_tarea_mayor_prioridad g).2.heap ∧
      (∀ x ∈ (obtener_tarea_mayor_prioridad g).2.heap, mle t x)) ∧
    ((obtener_tarea_mayor_prioridad g).1 = none ↔
      (obtener_tarea_mayor_prioridad g).2.heap = []) := by
  obtain ⟨i1, i2, i3, i4, i5, i6, i7⟩ :=
    obtenerLoopDisc_spec g.heap g.tareas_completadas hh
  have hr1 : (obtener_tarea_mayor_prioridad g).1 =
      (obtenerLoopDisc g.heap g.tareas_completadas).1 := by
    show (obtenerLoop g.heap g.tareas_completadas).1 = _
    rw [obtenerLoop_eq_disc]
  have hr2 : (obtener_tarea_mayor_prioridad g).2.heap =
      (obtenerLoopDisc g.heap g.tareas_completadas).2.1 := by
    show (obtenerLoop g.heap g.tareas_completadas).2 = _
    rw [obtenerLoop_eq_disc]
  constructor
  · intro t ht
    rw [hr1] at ht
    obtain ⟨h1, h2, h3⟩ := i4 t ht
    rw [hr2]
    refine ⟨h2, h1, ?_, ?_⟩
    · rcases hfe : (obtenerLoopDisc g.heap g.tareas_completadas).2.1 with _ | ⟨f, ff⟩
      · rw [hfe] at h1; simp at h1
      · rw [hfe] at h1
        simp at h1
        rw [h1]
        exact List.mem_cons_self t ff
    · intro x hx
      exact mle_of_taskle (h3 x hx)
  · rw [hr1, hr2]
    constructor
    · exact i3
    · intro hf
      rcases hres : (obtenerLoopDisc g.heap g.tareas_completadas).1 with _ | f
      · rfl
      · obtain ⟨h1, _, _⟩ := i4 f hres
        rw [hf] at h1
        simp at h1

/-- Witness for C1 on a concrete two-record store: the lower-priority
record is blocked, so the scan discards it and serves the other one. -/
theorem next_ready_task_spec_witness :
    (∀ t, (obtener_tarea_mayor_prioridad
        ⟨[⟨1, "2025-05-01T00:00:00", "b", ["a"]⟩,
          ⟨2, "2025-06-01T00:00:00", "a", []⟩], ∅, none⟩).1 = some t →
      (∀ dep ∈ t.dependencias, dep ∈
        (∅ : Finset String)) ∧
      (obtener_tarea_mayor_prioridad
        ⟨[⟨1, "2025-05-01T00:00:00", "b", ["a"]⟩,
          ⟨2, "2025-06-01T00:00:00", "a", []⟩], ∅, none⟩).2.heap.head? = some t ∧
      t ∈ (obtener_tarea_mayor_prioridad
        ⟨[⟨1, "2025-05-01T00:00:00", "b", ["a"]⟩,
          ⟨2, "2025-06-01T00:00:00", "a", []⟩], ∅, none⟩).2.heap ∧
      (∀ x ∈ (obtener_tarea_mayor_prioridad
        ⟨[⟨1, "2025-05-01T00:00:00", "b", ["a"]⟩,
          ⟨2, "2025-06-01T00:00:00", "a", []⟩], ∅, none⟩).2.heap, mle t x)) ∧
    ((obtener_tarea_mayor_prioridad
        ⟨[⟨1, "2025-05-01T00:00:00", "b", ["a"]⟩,
          ⟨2, "2025-06-01T00:00:00", "a", []⟩], ∅, none⟩).1 = none ↔
      (obtener_tarea_mayor_prioridad
        ⟨[⟨1, "2025-05-01T00:00:00", "b", ["a"]⟩,
          ⟨2, "2025-06-01T00:00:00", "a", []⟩], ∅, none⟩).2.heap = []) :=
  next_ready_task_spec _ (by decide)

/-- C2: on any store whose heap array satisfies the heap invariant,
every record that the `obtener_tarea_mayor_prioridad` scan pops because
of an unsatisfied dependency (the `obtenerLoopDisc` discard list) was
indeed blocked, and after the call it is gone: it is not in the
resulting store's heap and not in the output of a subsequent
`mostrar_tareas_pendientes` on that store. -/
theorem next_ready_task_discards_permanent (g : GestorTareas)
    (hh : IsHeap g.heap) :
    ∀ d ∈ (obtenerLoopDisc g.heap g.tareas_completadas).2.2,
      (¬ ∀ dep ∈ d.dependencias, dep ∈ g.tareas_completadas) ∧
      d ∉ (obtener_tarea_mayor_prioridad g).2.heap ∧
      d ∉ mostrar_tareas_pendientes (obtener_tarea_mayor_prioridad g).2 := by
  obtain ⟨i1, i2, i3, i4, i5, i6, i7⟩ :=
    obtenerLoopDisc_spec g.heap g.tareas_completadas hh
  have hr2 : (obtener_tarea_mayor_prioridad g).2.heap =
      (obtenerLoopDisc g.heap g.tareas_completadas).2.1 := by
    show (obtenerLoop g.heap g.tareas_completadas).2 = _
    rw [obtenerLoop_eq_disc]
  intro d hd
  refine ⟨i5 d hd, ?_, ?_⟩
  · rw [hr2]
    exact i6 d hd
  · show d ∉ merge_sort (obtener_tarea_mayor_prioridad g).2.heap
    rw [hr2]
    intro hc
    exact i6 d hd (mem_merge_sort.mp hc)

/-- Witness for C2: with completed-set empty, the blocked root
`("b", depends on "a")` is discarded and is absent afterwards. -/
theorem next_ready_task_discards_permanent_witness :
    (⟨1, "2025-05-01T00:00:00", "b", ["a"]⟩ : Task) ∈
      (obtenerLoopDisc
        [⟨1, "2025-05-01T00:00:00", "b", ["a"]⟩,
         ⟨2, "2025-06-01T00:00:00", "a", []⟩] (∅ : Finset String)).2.2 ∧
    ((¬ ∀ dep ∈ (⟨1, "2025-05-01T00:00:00", "b", ["a"]⟩ :
        Task).dependencias, dep ∈ (∅ : Finset String)) ∧
      (⟨1, "2025-05-01T00:00:00", "b", ["a"]⟩ : Task) ∉
        (obtener_tarea_mayor_prioridad
          ⟨[⟨1, "2025-05-01T00:00:00", "b", ["a"]⟩,
            ⟨2, "2025-06-01T00:00:00", "a", []⟩], ∅, none⟩).2.heap ∧
      (⟨1, "2025-05-01T00:00:00", "b", ["a"]⟩ : Task) ∉
        mostrar_tareas_pendientes (obtener_tarea_mayor_prioridad
          ⟨[⟨1, "2025-05-01T00:00:00", "b", ["a"]⟩,
            ⟨2, "2025-06-01T00:00:00", "a", []⟩], ∅, none⟩).2) := by
  have hsift : siftup [(⟨2, "2025-06-01T00:00:00", "a", []⟩ : Task)] 0 =
      [⟨2, "2025-06-01T00:00:00", "a", []⟩] := by
    unfold siftup
    rw [siftupLoop]
    simp only [List.length_singleton]
    rw [dif_neg (by omega)]
    rw [siftdown]
    rw [dif_neg (by omega)]
    simp [gi]
  have hpop : heappop [(⟨1, "2025-05-01T00:00:00", "b", ["a"]⟩ : Task),
      ⟨2, "2025-06-01T00:00:00", "a", []⟩] =
      some (⟨1, "2025-05-01T00:00:00", "b", ["a"]⟩,
        [⟨2, "2025-06-01T00:00:00", "a", []⟩]) := by
    have h0 : heappop [(⟨1, "2025-05-01T00:00:00", "b", ["a"]⟩ : Task),
        ⟨2, "2025-06-01T00:00:00", "a", []⟩] =
        some (⟨1, "2025-05-01T00:00:00", "b", ["a"]⟩,
          siftup [⟨2, "2025-06-01T00:00:00", "a", []⟩] 0) := rfl
    rw [h0, hsift]
  have hdisc : obtenerLoopDisc
      [(⟨1, "2025-05-01T00:00:00", "b", ["a"]⟩ : Task),
       ⟨2, "2025-06-01T00:00:00", "a", []⟩] (∅ : Finset String) =
      (some ⟨2, "2025-06-01T00:00:00", "a", []⟩,
        [⟨2, "2025-06-01T00:00:00", "a", []⟩],
        [⟨1, "2025-05-01T00:00:00", "b", ["a"]⟩]) := by
    rw [obtenerLoopDisc_blocked (by decide) hpop]
    rw [obtenerLoopDisc_ready [] (by decide)]
  have hmem : (⟨1, "2025-05-01T00:00:00", "b", ["a"]⟩ : Task) ∈
      (obtenerLoopDisc
        [⟨1, "2025-05-01T00:00:00", "b", ["a"]⟩,
         ⟨2, "2025-06-01T00:00:00", "a", []⟩] (∅ : Finset String)).2.2 := by
    rw [hdisc]
    simp
  exact ⟨hmem, next_ready_task_discards_permanent
    ⟨[⟨1, "2025-05-01T00:00:00", "b", ["a"]⟩,
      ⟨2, "2025-06-01T00:00:00", "a", []⟩], ∅, none⟩ (by decide) _ hmem⟩

/-- C7: `obtener_tarea_mayor_prioridad` never writes the snapshot: the
`archivo` component is untouched, so when the snapshot was in sync with
the heap before the call, each record discarded by the scan is still in
the persisted snapshot while no longer in the in-memory heap. -/
theorem next_ready_task_no_save (g : GestorTareas) :
    (obtener_tarea_mayor_prioridad g).2.archivo = g.archivo ∧
    (g.archivo = some g.heap → IsHeap g.heap →
      ∀ d ∈ (obtenerLoopDisc g.heap g.tareas_completadas).2.2,
        (∃ l, (obtener_tarea_mayor_prioridad g).2.archivo = some l ∧ d ∈ l) ∧
        d ∉ (obtener_tarea_mayor_prioridad g).2.heap) := by
  constructor
  · rfl
  · intro hsync hh d hd
    obtain ⟨i1, i2, i3, i4, i5, i6, i7⟩ :=
      obtenerLoopDisc_spec g.heap g.tareas_completadas hh
    constructor
    · refine ⟨g.heap, ?_, ?_⟩
      · show g.archivo = some g.heap
        exact hsync
      · have : d ∈ (obtenerLoopDisc g.heap g.tareas_completadas).2.2 ++
            (obtenerLoopDisc g.heap g.tareas_completadas).2.1 :=
          List.mem_append.mpr (Or.inl hd)
        exact i7.mem_iff.mp this
    · show d ∉ (obtenerLoop g.heap g.tareas_completadas).2
      rw [obtenerLoop_eq_disc]
      exact i6 d hd

/-- Witness for C7 on a synced store with one blocked and one ready
record. -/
theorem next_ready_task_no_save_witness :
    (obtener_tarea_mayor_prioridad
      ⟨[⟨1, "2025-05-01T00:00:00", "b", ["a"]⟩,
        ⟨2, "2025-06-01T00:00:00", "a", []⟩], ∅,
        some [⟨1, "2025-05-01T00:00:00", "b", ["a"]⟩,
          ⟨2, "2025-06-01T00:00:00", "a", []⟩]⟩).2.archivo =
      (⟨[⟨1, "2025-05-01T00:00:00", "b", ["a"]⟩,
        ⟨2, "2025-06-01T00:00:00", "a", []⟩], ∅,
        some [⟨1, "2025-05-01T00:00:00", "b", ["a"]⟩,
          ⟨2, "2025-06-01T00:00:00", "a", []⟩]⟩ : GestorTareas).archivo ∧
    ∀ d ∈ (obtenerLoopDisc
        [⟨1, "2025-05-01T00:00:00", "b", ["a"]⟩,
         ⟨2, "2025-06-01T00:00:00", "a", []⟩] (∅ : Finset String)).2.2,
      (∃ l, (obtener_tarea_mayor_prioridad
        ⟨[⟨1, "2025-05-01T00:00:00", "b", ["a"]⟩,
          ⟨2, "2025-06-01T00:00:00", "a", []⟩], ∅,
          some [⟨1, "2025-05-01T00:00:00", "b", ["a"]⟩,
            ⟨2, "2025-06-01T00:00:00", "a", []⟩]⟩).2.archivo = some l ∧ d ∈ l) ∧
      d ∉ (obtener_tarea_mayor_prioridad
        ⟨[⟨1, "2025-05-01T00:00:00", "b", ["a"]⟩,
          ⟨2, "2025-06-01T00:00:00", "a", []⟩], ∅,
          some [⟨1, "2025-05-01T00:00:00", "b", ["a"]⟩,
            ⟨2, "2025-06-01T00:00:00", "a", []⟩]⟩).2.heap :=
  ⟨(next_ready_task_no_save
      ⟨[⟨1, "2025-05-01T00:00:00", "b", ["a"]⟩,
        ⟨2, "2025-06-01T00:00:00", "a", []⟩], ∅,
        some [⟨1, "2025-05-01T00:00:00", "b", ["a"]⟩,
          ⟨2, "2025-06-01T00:00:00", "a", []⟩]⟩).1,
    (next_ready_task_no_save
      ⟨[⟨1, "2025-05-01T00:00:00", "b", ["a"]⟩,
        ⟨2, "2025-06-01T00:00:00", "a", []⟩], ∅,
        some [⟨1, "2025-05-01T00:00:00", "b", ["a"]⟩,
          ⟨2, "2025-06-01T00:00:00", "a", []⟩]⟩).2 rfl (by decide)⟩

theorem heappush_nil (x : Task) : heappush [] x = [x] := by
  unfold heappush
  rw [siftdown]
  simp

theorem heappush_two (a b : Task) :
    heappush [a] b = if Task.cmp b a = .lt then [b, a] else [a, b] := by
  unfold heappush
  rw [siftdown]
  simp only [List.length_singleton, Nat.lt_irrefl, List.singleton_append]
  rw [dif_pos (by omega)]
  have hg : gi [a, b] ((1 - 1) / 2) = a := rfl
  rw [hg]
  split
  · rw [siftdown]
    simp [List.set]
  · simp [List.set]

theorem merge_sort_nil : merge_sort [] = [] := by
  rw [merge_sort]
  simp

theorem merge_sort_single (x : Task) : merge_sort [x] = [x] := by
  rw [merge_sort]
  simp

theorem merge_sort_pair (x y : Task) :
    merge_sort [x, y] = if mle x y then [x, y] else [y, x] := by
  rw [merge_sort]
  simp only [List.length_cons, List.length_singleton, List.length_nil]
  rw [if_neg (by omega)]
  have h1 : ([x, y].take ((2 : Nat) / 2)) = [x] := rfl
  have h2 : ([x, y].drop ((2 : Nat) / 2)) = [y] := rfl
  norm_num
  rw [merge_sort_single, merge_sort_single, mezclar_cons_cons]
  split
  · rw [mezclar_nil_left]
  · rw [mezclar_nil_right]

/-- C3 counterexample: two `añadir_tarea` calls with distinct names
`"b"` then `"a"` and the same `(prioridad, fecha)` key.  Insertion
order is `b` before `a`, but `mostrar_tareas_pendientes` lists `a`
before `b`: `heappush` orders equal-key tuples by the name component
inside the heap array, and the merge sort is stable with respect to the
array, so ties do NOT keep insertion order. -/
theorem list_pending_not_insertion_stable :
    ((«añadir_tarea» ⟨[], ∅, none⟩ "b" (.int 1) "2025-01-01" []).bind
        (fun g1 => «añadir_tarea» g1 "a" (.int 1) "2025-01-01" [])).map
      mostrar_tareas_pendientes =
      .ok [(⟨1, "2025-01-01T00:00:00", "a", []⟩ : Task),
        ⟨1, "2025-01-01T00:00:00", "b", []⟩] ∧
    [(⟨1, "2025-01-01T00:00:00", "a", []⟩ : Task),
        ⟨1, "2025-01-01T00:00:00", "b", []⟩] ≠
      [(⟨1, "2025-01-01T00:00:00", "b", []⟩ : Task),
        ⟨1, "2025-01-01T00:00:00", "a", []⟩] := by
  constructor
  · have hb : «añadir_tarea» ⟨[], ∅, none⟩ "b" (.int 1) "2025-01-01" [] =
        .ok ⟨[⟨1, "2025-01-01T00:00:00", "b", []⟩], ∅,
          some [⟨1, "2025-01-01T00:00:00", "b", []⟩]⟩ := by
      unfold «añadir_tarea»
      rw [if_neg (by decide),
        show strptimeYmd "2025-01-01" = some (2025, 1, 1) from rfl]
      show Except.ok (guardar_tareas
        ⟨heappush [] ⟨1, isoformat 2025 1 1, "b", []⟩, ∅, none⟩) = _
      rw [heappush_nil]
      rfl
    have ha : «añadir_tarea»
        ⟨[⟨1, "2025-01-01T00:00:00", "b", []⟩], ∅,
          some [⟨1, "2025-01-01T00:00:00", "b", []⟩]⟩
        "a" (.int 1) "2025-01-01" [] =
        .ok ⟨[⟨1, "2025-01-01T00:00:00", "a", []⟩,
            ⟨1, "2025-01-01T00:00:00", "b", []⟩], ∅,
          some [⟨1, "2025-01-01T00:00:00", "a", []⟩,
            ⟨1, "2025-01-01T00:00:00", "b", []⟩]⟩ := by
      unfold «añadir_tarea»
      rw [if_neg (by decide),
        show strptimeYmd "2025-01-01" = some (2025, 1, 1) from rfl]
      show Except.ok (guardar_tareas
        ⟨heappush [⟨1, "2025-01-01T00:00:00", "b", []⟩]
            ⟨1, isoformat 2025 1 1, "a", []⟩, ∅,
          some [⟨1, "2025-01-01T00:00:00", "b", []⟩]⟩) = _
      rw [heappush_two, if_pos (by decide)]
      rfl
    rw [hb]
    rw [show (Except.ok (⟨[⟨1, "2025-01-01T00:00:00", "b", []⟩], ∅,
        some [⟨1, "2025-01-01T00:00:00", "b", []⟩]⟩ : GestorTareas) :
          Except AddError GestorTareas).bind
        (fun g1 => «añadir_tarea» g1 "a" (.int 1) "2025-01-01" []) =
        «añadir_tarea» ⟨[⟨1, "2025-01-01T00:00:00", "b", []⟩], ∅,
          some [⟨1, "2025-01-01T00:00:00", "b", []⟩]⟩
          "a" (.int 1) "2025-01-01" [] from rfl]
    rw [ha]
    show Except.ok (mostrar_tareas_pendientes _) = _
    rw [show mostrar_tareas_pendientes
        ⟨[⟨1, "2025-01-01T00:00:00", "a", []⟩,
          ⟨1, "2025-01-01T00:00:00", "b", []⟩], ∅,
          some [⟨1, "2025-01-01T00:00:00", "a", []⟩,
            ⟨1, "2025-01-01T00:00:00", "b", []⟩]⟩ =
        merge_sort [⟨1, "2025-01-01T00:00:00", "a", []⟩,
          ⟨1, "2025-01-01T00:00:00", "b", []⟩] from rfl]
    rw [merge_sort_pair, if_pos (by decide)]
  · decide

/-- C3 amended: `mostrar_tareas_pendientes` returns the pending records
sorted ascending by the `(prioridad, fecha)` key, and it is a stable
permutation of the internal heap array: records with equal keys appear
in the relative order they occupy in the heap array (not in insertion
order, since `heappush` arranges equal-key records inside the array by
the full tuple comparison, which continues with the name). -/
theorem list_pending_sorted_stable (g : GestorTareas) :
    List.Sorted mle (mostrar_tareas_pendientes g) ∧
    (mostrar_tareas_pendientes g).Perm g.heap ∧
    ∀ k : Int × String,
      (mostrar_tareas_pendientes g).filter (fun t => decide (tkey t = k)) =
        g.heap.filter (fun t => decide (tkey t = k)) :=
  ⟨merge_sort_sorted g.heap, merge_sort_perm g.heap,
    fun k => merge_sort_filter k g.heap⟩

/-- C4: saving a snapshot (`guardar_tareas`) and loading it into a fresh
store (`GestorTareas.__init__` with the saved file) yields a store whose
`mostrar_tareas_pendientes` output is identical, element for element, to
the one before the save: the snapshot is the heap array itself, and
`heapify` of a valid heap array is the identity. -/
theorem save_load_round_trip (g : GestorTareas) (hh : IsHeap g.heap) :
    mostrar_tareas_pendientes (gestorInit (guardar_tareas g).archivo) =
      mostrar_tareas_pendientes g ∧
    (gestorInit (guardar_tareas g).archivo).heap = g.heap := by
  have h2 : (gestorInit (guardar_tareas g).archivo).heap = heapify g.heap := rfl
  have h3 : (gestorInit (guardar_tareas g).archivo).heap = g.heap := by
    rw [h2, heapify_id hh]
  refine ⟨?_, h3⟩
  show merge_sort (gestorInit (guardar_tareas g).archivo).heap = merge_sort g.heap
  rw [h3]

/-- Witness for C4 on a concrete three-record heap. -/
theorem save_load_round_trip_witness :
    mostrar_tareas_pendientes (gestorInit (guardar_tareas
      ⟨[⟨1, "2025-01-01T00:00:00", "a", []⟩,
        ⟨2, "2025-03-01T00:00:00", "b", []⟩,
        ⟨2, "2025-02-01T00:00:00", "c", ["a"]⟩], ∅, none⟩).archivo) =
      mostrar_tareas_pendientes
      ⟨[⟨1, "2025-01-01T00:00:00", "a", []⟩,
        ⟨2, "2025-03-01T00:00:00", "b", []⟩,
        ⟨2, "2025-02-01T00:00:00", "c", ["a"]⟩], ∅, none⟩ ∧
    (gestorInit (guardar_tareas
      ⟨[⟨1, "2025-01-01T00:00:00", "a", []⟩,
        ⟨2, "2025-03-01T00:00:00", "b", []⟩,
        ⟨2, "2025-02-01T00:00:00", "c", ["a"]⟩], ∅, none⟩).archivo).heap =
      (⟨[⟨1, "2025-01-01T00:00:00", "a", []⟩,
        ⟨2, "2025-03-01T00:00:00", "b", []⟩,
        ⟨2, "2025-02-01T00:00:00", "c", ["a"]⟩], ∅, none⟩ : GestorTareas).heap :=
  save_load_round_trip _ (by decide)

/-- C6: on any store holding a pending record named `n`,
`completar_tarea n` reports success, records `n` as completed, and a
second call in a row reports "not found" as a plain boolean result,
leaves the completed-set unchanged (so `n` stays recorded) and leaves
the pending records unchanged as a multiset. -/
theorem complete_task_idempotent (g : GestorTareas) (n : String)
    (hex : ∃ t ∈ g.heap, t.nombre = n) :
    (completar_tarea g n).2 = true ∧
    n ∈ (completar_tarea g n).1.tareas_completadas ∧
    (completar_tarea (completar_tarea g n).1 n).2 = false ∧
    n ∈ (completar_tarea (completar_tarea g n).1 n).1.tareas_completadas ∧
    (completar_tarea (completar_tarea g n).1 n).1.tareas_completadas =
      (completar_tarea g n).1.tareas_completadas ∧
    (completar_tarea (completar_tarea g n).1 n).1.heap.Perm
      (completar_tarea g n).1.heap := by
  obtain ⟨s1a, s1b, s1c, s1d⟩ :=
    completarLoop_spec n g.heap false [] g.tareas_completadas
  have h1 : (completar_tarea g n).2 = true := by
    show (completarLoop n g.heap false [] g.tareas_completadas).1 = true
    exact s1a.mpr (Or.inr hex)
  have hg1t : (completar_tarea g n).1.tareas_completadas =
      insert n g.tareas_completadas := by
    show (completarLoop n g.heap false [] g.tareas_completadas).2.2 = _
    exact s1c hex
  have hg1heap : (completar_tarea g n).1.heap.Perm
      (g.heap.filter (fun t => !(t.nombre == n))) := by
    show (heapify
      (completarLoop n g.heap false [] g.tareas_completadas).2.1).Perm _
    refine (heapify_perm _).trans (s1b.trans ?_)
    simp
  have hnone : ¬ ∃ t ∈ (completar_tarea g n).1.heap, t.nombre = n := by
    rintro ⟨t, ht, htn⟩
    have hf := List.mem_filter.mp (hg1heap.mem_iff.mp ht)
    rw [htn] at hf
    simp at hf
  obtain ⟨s2a, s2b, s2c, s2d⟩ := completarLoop_spec n
    (completar_tarea g n).1.heap false []
    (completar_tarea g n).1.tareas_completadas
  have h3 : (completar_tarea (completar_tarea g n).1 n).2 = false := by
    show (completarLoop n (completar_tarea g n).1.heap false []
      (completar_tarea g n).1.tareas_completadas).1 = false
    rcases Bool.eq_false_or_eq_true ((completarLoop n
        (completar_tarea g n).1.heap false []
        (completar_tarea g n).1.tareas_completadas).1) with hb | hb
    · rcases s2a.mp hb with hc | hc
      · exact absurd hc (by simp)
      · exact absurd hc hnone
    · exact hb
  have h4t : (completar_tarea (completar_tarea g n).1 n).1.tareas_completadas =
      (completar_tarea g n).1.tareas_completadas := by
    show (completarLoop n (completar_tarea g n).1.heap false []
      (completar_tarea g n).1.tareas_completadas).2.2 = _
    exact s2d hnone
  have hall : ∀ x ∈ (completar_tarea g n).1.heap,
      (!(x.nombre == n)) = true := by
    intro x hx
    simp only [Bool.not_eq_true', beq_eq_false_iff_ne, ne_eq]
    exact fun hc => hnone ⟨x, hx, hc⟩
  have h4h : (completar_tarea (completar_tarea g n).1 n).1.heap.Perm
      (completar_tarea g n).1.heap := by
    show (heapify (completarLoop n (completar_tarea g n).1.heap false []
      (completar_tarea g n).1.tareas_completadas).2.1).Perm _
    refine (heapify_perm _).trans (s2b.trans ?_)
    simp only [List.nil_append]
    rw [filter_id_of _ _ hall]
  exact ⟨h1, by rw [hg1t]; exact Finset.mem_insert_self n _, h3,
    by rw [h4t, hg1t]; exact Finset.mem_insert_self n _, h4t, h4h⟩

/-- Witness for C6 on a one-record store. -/
theorem complete_task_idempotent_witness :
    (∃ t ∈ (⟨[⟨1, "2025-01-01T00:00:00", "a", []⟩], ∅, none⟩ :
        GestorTareas).heap, t.nombre = "a") ∧
    ((completar_tarea (⟨[⟨1, "2025-01-01T00:00:00", "a", []⟩], ∅, none⟩ :
        GestorTareas) "a").2 = true ∧
      "a" ∈ (completar_tarea (⟨[⟨1, "2025-01-01T00:00:00", "a", []⟩], ∅,
        none⟩ : GestorTareas) "a").1.tareas_completadas ∧
      (completar_tarea (completar_tarea
        (⟨[⟨1, "2025-01-01T00:00:00", "a", []⟩], ∅, none⟩ : GestorTareas)
        "a").1 "a").2 = false ∧
      "a" ∈ (completar_tarea (completar_tarea
        (⟨[⟨1, "2025-01-01T00:00:00", "a", []⟩], ∅, none⟩ : GestorTareas)
        "a").1 "a").1.tareas_completadas ∧
      (completar_tarea (completar_tarea
        (⟨[⟨1, "2025-01-01T00:00:00", "a", []⟩], ∅, none⟩ : GestorTareas)
        "a").1 "a").1.tareas_completadas =
        (completar_tarea (⟨[⟨1, "2025-01-01T00:00:00", "a", []⟩], ∅, none⟩ :
          GestorTareas) "a").1.tareas_completadas ∧
      (completar_tarea (completar_tarea
        (⟨[⟨1, "2025-01-01T00:00:00", "a", []⟩], ∅, none⟩ : GestorTareas)
        "a").1 "a").1.heap.Perm
        (completar_tarea (⟨[⟨1, "2025-01-01T00:00:00", "a", []⟩], ∅, none⟩ :
          GestorTareas) "a").1.heap) :=
  ⟨by decide, complete_task_idempotent _ "a" (by decide)⟩

/-- C9: a single `completar_tarea n` removes every pending record named
`n` (the surviving multiset is exactly the records with other names,
each of which is kept), and when at least one record matched the
completed-set becomes `insert n` of the old one — one addition, a set. -/
theorem complete_task_removes_all (g : GestorTareas) (n : String) :
    (completar_tarea g n).1.heap.Perm
      (g.heap.filter (fun t => !(t.nombre == n))) ∧
    (∀ t ∈ (completar_tarea g n).1.heap, ¬ t.nombre = n) ∧
    (∀ t ∈ g.heap, ¬ t.nombre = n → t ∈ (completar_tarea g n).1.heap) ∧
    ((∃ t ∈ g.heap, t.nombre = n) →
      (completar_tarea g n).1.tareas_completadas =
        insert n g.tareas_completadas) := by
  obtain ⟨a1, a2, a3, a4⟩ :=
    completarLoop_spec n g.heap false [] g.tareas_completadas
  have hperm : (completar_tarea g n).1.heap.Perm
      (g.heap.filter (fun t => !(t.nombre == n))) := by
    show (heapify
      (completarLoop n g.heap false [] g.tareas_completadas).2.1).Perm _
    refine (heapify_perm _).trans (a2.trans ?_)
    simp
  refine ⟨hperm, ?_, ?_, ?_⟩
  · intro t ht htn
    have hf := List.mem_filter.mp (hperm.mem_iff.mp ht)
    rw [htn] at hf
    simp at hf
  · intro t ht htn
    refine hperm.mem_iff.mpr (List.mem_filter.mpr ⟨ht, ?_⟩)
    simp [htn]
  · intro hex
    show (completarLoop n g.heap false [] g.tareas_completadas).2.2 = _
    exact a3 hex

/-- Witness for C9 on a store with two records named `"a"`: both are
removed, the record named `"b"` survives, `"a"` is recorded once. -/
theorem complete_task_removes_all_witness :
    (completar_tarea (⟨[⟨1, "2025-01-01T00:00:00", "a", []⟩,
        ⟨2, "2025-02-01T00:00:00", "a", []⟩,
        ⟨3, "2025-03-01T00:00:00", "b", []⟩], ∅, none⟩ : GestorTareas)
      "a").1.heap.Perm
      ((⟨[⟨1, "2025-01-01T00:00:00", "a", []⟩,
        ⟨2, "2025-02-01T00:00:00", "a", []⟩,
        ⟨3, "2025-03-01T00:00:00", "b", []⟩], ∅, none⟩ :
          GestorTareas).heap.filter (fun t => !(t.nombre == "a"))) ∧
    (∀ t ∈ (completar_tarea (⟨[⟨1, "2025-01-01T00:00:00", "a", []⟩,
        ⟨2, "2025-02-01T00:00:00", "a", []⟩,
        ⟨3, "2025-03-01T00:00:00", "b", []⟩], ∅, none⟩ : GestorTareas)
      "a").1.heap, ¬ t.nombre = "a") ∧
    (∀ t ∈ (⟨[⟨1, "2025-01-01T00:00:00", "a", []⟩,
        ⟨2, "2025-02-01T00:00:00", "a", []⟩,
        ⟨3, "2025-03-01T00:00:00", "b", []⟩], ∅, none⟩ :
          GestorTareas).heap, ¬ t.nombre = "a" →
      t ∈ (completar_tarea (⟨[⟨1, "2025-01-01T00:00:00", "a", []⟩,
        ⟨2, "2025-02-01T00:00:00", "a", []⟩,
        ⟨3, "2025-03-01T00:00:00", "b", []⟩], ∅, none⟩ : GestorTareas)
      "a").1.heap) ∧
    ((∃ t ∈ (⟨[⟨1, "2025-01-01T00:00:00", "a", []⟩,
        ⟨2, "2025-02-01T00:00:00", "a", []⟩,
        ⟨3, "2025-03-01T00:00:00", "b", []⟩], ∅, none⟩ :
          GestorTareas).heap, t.nombre = "a") →
      (completar_tarea (⟨[⟨1, "2025-01-01T00:00:00", "a", []⟩,
        ⟨2, "2025-02-01T00:00:00", "a", []⟩,
        ⟨3, "2025-03-01T00:00:00", "b", []⟩], ∅, none⟩ : GestorTareas)
      "a").1.tareas_completadas = insert "a" ∅) :=
  complete_task_removes_all _ "a"

/-- C10: on any store whose heap array satisfies the binary min-heap
invariant, every public operation leaves (or re-establishes) it — a
successful `añadir_tarea`, `completar_tarea`, the destructive scan of
`obtener_tarea_mayor_prioridad`, and startup load from any file state —
and the invariant makes `heap[0]` a minimum of the pending set. -/
theorem heap_invariant_preserved (g : GestorTareas) (hh : IsHeap g.heap) :
    (∀ nombre prioridad fecha deps g2,
      «añadir_tarea» g nombre prioridad fecha deps = .ok g2 →
        IsHeap g2.heap) ∧
    (∀ n, IsHeap (completar_tarea g n).1.heap) ∧
    IsHeap (obtener_tarea_mayor_prioridad g).2.heap ∧
    (∀ file, IsHeap (gestorInit file).heap) ∧
    (∀ t ∈ g.heap, Task.le (gi g.heap 0) t) := by
  refine ⟨?_, ?_, ?_, ?_, ?_⟩
  · intro nombre prioridad fecha deps g2 he
    unfold «añadir_tarea» at he
    split at he
    · exact Except.noConfusion he
    · split at he
      · exact Except.noConfusion he
      · rename_i p
        split at he
        · exact Except.noConfusion he
        · rename_i y m d hd
          rw [← Except.ok.inj he]
          show IsHeap (heappush g.heap ⟨p, isoformat y m d, nombre, deps⟩)
          exact heappush_isHeap hh _
  · intro n
    show IsHeap (heapify
      (completarLoop n g.heap false [] g.tareas_completadas).2.1)
    exact heapify_isHeap _
  · show IsHeap (obtenerLoop g.heap g.tareas_completadas).2
    rw [obtenerLoop_eq_disc]
    exact (obtenerLoopDisc_spec g.heap g.tareas_completadas hh).1
  · intro file
    rcases file with _ | l
    · show IsHeap ([] : List Task)
      intro j hj h0
      simp at hj
    · show IsHeap (heapify l)
      exact heapify_isHeap l
  · intro t ht
    exact root_min_mem hh ht

/-- Witness for C10 on a concrete two-record heap. -/
theorem heap_invariant_preserved_witness :
    IsHeap (⟨[⟨1, "2025-01-01T00:00:00", "a", []⟩,
      ⟨2, "2025-02-01T00:00:00", "b", []⟩], ∅, none⟩ :
        GestorTareas).heap ∧
    ((∀ nombre prioridad fecha deps g2,
      «añadir_tarea» (⟨[⟨1, "2025-01-01T00:00:00", "a", []⟩,
        ⟨2, "2025-02-01T00:00:00", "b", []⟩], ∅, none⟩ : GestorTareas)
        nombre prioridad fecha deps = .ok g2 → IsHeap g2.heap) ∧
    (∀ n, IsHeap (completar_tarea
      (⟨[⟨1, "2025-01-01T00:00:00", "a", []⟩,
        ⟨2, "2025-02-01T00:00:00", "b", []⟩], ∅, none⟩ : GestorTareas)
      n).1.heap) ∧
    IsHeap (obtener_tarea_mayor_prioridad
      (⟨[⟨1, "2025-01-01T00:00:00", "a", []⟩,
        ⟨2, "2025-02-01T00:00:00", "b", []⟩], ∅, none⟩ :
          GestorTareas)).2.heap ∧
    (∀ file, IsHeap (gestorInit file).heap) ∧
    (∀ t ∈ (⟨[⟨1, "2025-01-01T00:00:00", "a", []⟩,
        ⟨2, "2025-02-01T00:00:00", "b", []⟩], ∅, none⟩ :
          GestorTareas).heap,
      Task.le (gi (⟨[⟨1, "2025-01-01T00:00:00", "a", []⟩,
        ⟨2, "2025-02-01T00:00:00", "b", []⟩], ∅, none⟩ :
          GestorTareas).heap 0) t)) :=
  ⟨by decide, heap_invariant_preserved _ (by decide)⟩

end GestionTareas
